import Mathlib

/-!
A shallow embedding of the beam-analysis engine of `src/BeamCalculator.tsx`
(direct stiffness method for a prismatic Euler-Bernoulli beam), together with
theorems checking the natural-language specification against it.

JavaScript numbers are modelled by `ℚ` (the engine performs only field
operations and comparisons), mutable arrays by total functions `ℕ → ℚ`
(entries outside the active range are irrelevant and kept at their source
values), and nullable returns by `Option`.
-/

namespace BeamVerify

/-- `SupportType` of the source: "free" | "pinned" | "fixed". -/
inductive SupportType
  | free
  | pinned
  | fixed
deriving DecidableEq, Repr

/-- `Support` of the source (the UI-only `id` field is dropped; list order is kept). -/
structure Support where
  positionMm : ℚ
  type : SupportType
deriving DecidableEq, Repr

/-- `PointLoad` of the source (without the UI-only `id`). -/
structure PointLoad where
  positionMm : ℚ
  magnitudeKn : ℚ
deriving DecidableEq, Repr

/-- `Udl` of the source (without the UI-only `id`). -/
structure Udl where
  startMm : ℚ
  endMm : ℚ
  magnitudeKnPerM : ℚ
deriving DecidableEq, Repr

/-- `Node` of the source. -/
structure Node where
  x : ℚ
  supportType : SupportType
deriving DecidableEq, Repr

/-- A default node used with `List.getD`; the source indexes only in bounds. -/
def dfltNode : Node := ⟨0, SupportType.free⟩

/-- `uniqueSorted` of the source: `Array.from(new Set(values)).sort((a, b) => a - b)`.
Deduplication followed by an ascending sort of rationals. -/
def uniqueSorted (values : List ℚ) : List ℚ :=
  List.insertionSort (· ≤ ·) values.dedup

/-- `buildNodes` of the source: candidate positions are 0, the beam length, all
support positions, all point-load positions and all UDL endpoints; positions
outside `[0, length]` are discarded; the result is deduplicated, sorted and
mapped to nodes whose kind is the kind of the first support found at that exact
position, else free. -/
def buildNodes (lengthMm : ℚ) (supports : List Support)
    (pointLoads : List PointLoad) (udls : List Udl) : List Node :=
  let basePositions : List ℚ :=
    [0, lengthMm] ++ supports.map (·.positionMm) ++ pointLoads.map (·.positionMm)
      ++ udls.flatMap (fun udl => [udl.startMm, udl.endMm])
  let positions := uniqueSorted
    (basePositions.filter (fun pos => 0 ≤ pos ∧ pos ≤ lengthMm))
  positions.map (fun position =>
    { x := position
      supportType :=
        ((supports.find? (fun item => item.positionMm = position)).map (·.type)).getD
          SupportType.free })

/-- `mapLoadsToNodes` of the source: each point load adds `-magnitude * 1000`
to the entry of the node found (by `findIndex`) at its exact position; loads
matching no node (JS index `-1`, here `findIdx = length`) are skipped. -/
def mapLoadsToNodes (nodes : List Node) (pointLoads : List PointLoad) : ℕ → ℚ :=
  fun j =>
    (pointLoads.map (fun load =>
      if nodes.findIdx (fun node => node.x = load.positionMm) = j ∧ j < nodes.length
      then -load.magnitudeKn * 1000 else 0)).sum

/-- `getElementUdl` of the source: the sum of the intensities of all UDLs whose
`[start, end]` interval contains the element midpoint. -/
def getElementUdl (udls : List Udl) (xStart xEnd : ℚ) : ℚ :=
  let mid := (xStart + xEnd) / 2
  ((udls.filter (fun udl => udl.startMm ≤ mid ∧ mid ≤ udl.endMm)).map
    (·.magnitudeKnPerM)).sum

/-- `ElementData` of the source; the 4x4 local stiffness matrix and the 4-entry
fixed-end force vector are stored as functions on `Fin 4`. -/
structure ElementData where
  index : ℕ
  length : ℚ
  wNPerMm : ℚ
  kLocal : Fin 4 → Fin 4 → ℚ
  fFixed : Fin 4 → ℚ

/-- The source's `dofMap` array `[i*2, i*2+1, (i+1)*2, (i+1)*2+1]`. -/
def dofMapFn (i : ℕ) : Fin 4 → ℕ :=
  ![i * 2, i * 2 + 1, (i + 1) * 2, (i + 1) * 2 + 1]

/-- The unscaled local stiffness matrix of the source (before the `EI / L³` factor):
`[[12, 6L, -12, 6L], [6L, 4L², -6L, 2L²], [-12, -6L, 12, -6L], [6L, 2L², -6L, 4L²]]`. -/
def kLocalBase (L : ℚ) : Fin 4 → Fin 4 → ℚ :=
  ![![12, 6 * L, -12, 6 * L],
    ![6 * L, 4 * L ^ 2, -6 * L, 2 * L ^ 2],
    ![-12, -6 * L, 12, -6 * L],
    ![6 * L, 2 * L ^ 2, -6 * L, 4 * L ^ 2]]

/-- The source's fixed-end force vector `[wL/2, wL²/12, wL/2, -wL²/12]`. -/
def fFixedVec (w L : ℚ) : Fin 4 → ℚ :=
  ![w * L / 2, w * L ^ 2 / 12, w * L / 2, -(w * L ^ 2) / 12]

/-- The assembled global system: stiffness matrix `K`, load vector `F`, and the
retained per-element records. -/
structure Assembled where
  K : ℕ → ℕ → ℚ
  F : ℕ → ℚ
  elementData : List ElementData

/-- One iteration of the assembly loop of `assembleSystem` for element `i`
(consecutive node pair `(i, i+1)`): skipped when `L ≤ 0`; otherwise the scaled
local stiffness matrix and fixed-end forces are added into the global matrix
and load vector at the mapped DOF indices, and the element record is appended.
The 16 (resp. 4) in-place `+=` updates at pairwise distinct indices are written
as a single pointwise addition. -/
def assembleStep (EI : ℚ) (udls : List Udl) (nodes : List Node)
    (s : Assembled) (i : ℕ) : Assembled :=
  let x1 := (nodes.getD i dfltNode).x
  let x2 := (nodes.getD (i + 1) dfltNode).x
  let L := x2 - x1
  if L ≤ 0 then s
  else
    let wNPerMm := -(getElementUdl udls x1 x2)
    let kLocal : Fin 4 → Fin 4 → ℚ := fun r c => kLocalBase L r c * (EI / L ^ 3)
    let fFixed := fFixedVec wNPerMm L
    { K := fun a b => s.K a b +
        ∑ r : Fin 4, ∑ c : Fin 4,
          if dofMapFn i r = a ∧ dofMapFn i c = b then kLocal r c else 0
      F := fun d => s.F d +
        ∑ r : Fin 4, if dofMapFn i r = d then fFixed r else 0
      elementData := s.elementData ++
        [{ index := i, length := L, wNPerMm := wNPerMm, kLocal := kLocal,
           fFixed := fFixed }] }

/-- `assembleSystem` of the source: the zero matrix and the point-load vector are
the starting state; the element loop runs over `i = 0 .. nodes.length - 2`. -/
def assembleSystem (nodes : List Node) (youngsModulusMpa inertiaMm4 : ℚ)
    (pointLoads : List PointLoad) (udls : List Udl) : Assembled :=
  let nodePointLoads := mapLoadsToNodes nodes pointLoads
  let F0 : ℕ → ℚ := fun d =>
    if d % 2 = 0 ∧ d / 2 < nodes.length then nodePointLoads (d / 2) else 0
  let EI := youngsModulusMpa * inertiaMm4
  (List.range (nodes.length - 1)).foldl (assembleStep EI udls nodes)
    ⟨fun _ _ => 0, F0, []⟩

/-- The constrained DOF list of `applyBoundaryConditions`: per node in order,
"pinned" pushes the vertical DOF `2i`, "fixed" pushes `2i` and `2i+1`. -/
def constrainedDofs (nodes : List Node) : List ℕ :=
  (List.range nodes.length).flatMap (fun i =>
    match (nodes.getD i dfltNode).supportType with
    | SupportType.pinned => [i * 2]
    | SupportType.fixed => [i * 2, i * 2 + 1]
    | SupportType.free => [])

/-- The result of `applyBoundaryConditions`. -/
structure Reduced where
  constrained : List ℕ
  free : List ℕ
  Kff : ℕ → ℕ → ℚ
  Ff : ℕ → ℚ

/-- `applyBoundaryConditions` of the source: the free DOF list is the ascending
complement of the constrained DOFs inside `0 .. 2*nodes.length - 1`, and the
reduced matrix/vector select the free rows and columns. -/
def applyBoundaryConditions (nodes : List Node) (K : ℕ → ℕ → ℚ) (F : ℕ → ℚ) :
    Reduced :=
  let constrained := constrainedDofs nodes
  let free := (List.range (nodes.length * 2)).filter (fun i => i ∉ constrained)
  { constrained := constrained
    free := free
    Kff := fun r c =>
      if r < free.length ∧ c < free.length then K (free.getD r 0) (free.getD c 0)
      else 0
    Ff := fun r => if r < free.length then F (free.getD r 0) else 0 }

/-- The solver state of `solveLinearSystem`: the working matrix `M` and the
vector `x` (a copy of `b` transformed in place into the solution). -/
structure GState where
  M : ℕ → ℕ → ℚ
  x : ℕ → ℚ

/-- The partial-pivoting scan of `solveLinearSystem`: starting from `maxRow = k`,
each row `i = k+1 .. n-1` replaces `maxRow` when `|M i k| > |M maxRow k|`. -/
def pivotRow (M : ℕ → ℕ → ℚ) (n k : ℕ) : ℕ :=
  (List.range' (k + 1) (n - (k + 1))).foldl
    (fun maxRow i => if |M maxRow k| < |M i k| then i else maxRow) k

/-- The singularity threshold `1e-9` of the source. -/
def pivotEps : ℚ := 1 / 1000000000

/-- The row swap `[M[k], M[maxRow]] = [M[maxRow], M[k]]` of the source. -/
def swapRowsM (M : ℕ → ℕ → ℚ) (k p : ℕ) : ℕ → ℕ → ℚ :=
  fun i j => if i = k then M p j else if i = p then M k j else M i j

/-- The entry swap `[x[k], x[maxRow]] = [x[maxRow], x[k]]` of the source. -/
def swapVec (x : ℕ → ℚ) (k p : ℕ) : ℕ → ℚ :=
  fun i => if i = k then x p else if i = p then x k else x i

/-- The pivot-row normalization of the source: `M[k][j] /= pivot` for `j = k .. n-1`. -/
def scaleM (n k : ℕ) (pivot : ℚ) (M : ℕ → ℕ → ℚ) : ℕ → ℕ → ℚ :=
  fun i j => if i = k ∧ k ≤ j ∧ j < n then M i j / pivot else M i j

/-- The pivot normalization of `x`: `x[k] /= pivot`. -/
def scaleV (k : ℕ) (pivot : ℚ) (x : ℕ → ℚ) : ℕ → ℚ :=
  fun i => if i = k then x i / pivot else x i

/-- The column elimination of the source: for every row `i ≠ k` (`i < n`),
`M[i][j] -= factor * M[k][j]` for `j = k .. n-1`, with `factor = M[i][k]` read
before the row update. -/
def elimM (n k : ℕ) (M : ℕ → ℕ → ℚ) : ℕ → ℕ → ℚ :=
  fun i j =>
    if i < n ∧ i ≠ k ∧ k ≤ j ∧ j < n then M i j - M i k * M k j else M i j

/-- The corresponding elimination carried on `x`: `x[i] -= factor * x[k]`. -/
def elimV (n k : ℕ) (M : ℕ → ℕ → ℚ) (x : ℕ → ℚ) : ℕ → ℚ :=
  fun i => if i < n ∧ i ≠ k then x i - M i k * x k else x i

/-- The state after a successful elimination step `k`. -/
def elimNext (n k : ℕ) (s : GState) : GState :=
  let maxRow := pivotRow s.M n k
  let M1 := swapRowsM s.M k maxRow
  let x1 := swapVec s.x k maxRow
  let pivot := M1 k k
  let M2 := scaleM n k pivot M1
  let x2 := scaleV k pivot x1
  ⟨elimM n k M2, elimV n k M2 x2⟩

/-- One step `k` of the elimination loop of `solveLinearSystem`: pick the pivot
row, fail when its absolute value is below `1e-9`, otherwise swap it into
position `k`, scale row `k` (entries `j = k .. n-1`) and `x k` by the pivot, and
eliminate column `k` from every other row `i`, carrying `x` along. -/
def elimStep (n k : ℕ) (s : GState) : Option GState :=
  let maxRow := pivotRow s.M n k
  if |s.M maxRow k| < pivotEps then none
  else some (elimNext n k s)

/-- The elimination loop of `solveLinearSystem`, from step `k` up to `n`. -/
def gaussGo (n : ℕ) (k : ℕ) (s : GState) : Option GState :=
  if _h : k < n then
    match elimStep n k s with
    | none => none
    | some s' => gaussGo n (k + 1) s'
  else some s
termination_by n - k

/-- The elimination loop stopped early: steps `k .. m-1` only (with the row
length still `n`); used to state which step the full loop fails at. -/
def runSteps (n : ℕ) (k m : ℕ) (s : GState) : Option GState :=
  if _h : k < m then
    match elimStep n k s with
    | none => none
    | some s' => runSteps n (k + 1) m s'
  else some s
termination_by m - k

/-- `solveLinearSystem` of the source: Gauss-Jordan elimination with partial
pivoting on a copy of `(A, b)`; `null` (here `none`) signals a pivot below the
`1e-9` threshold. -/
def solveLinearSystem (n : ℕ) (A : ℕ → ℕ → ℚ) (b : ℕ → ℚ) : Option (ℕ → ℚ) :=
  (gaussGo n 0 ⟨A, b⟩).map GState.x

/-- A row of the reaction table of the source. -/
structure ReactionRow where
  positionMm : ℚ
  verticalKn : ℚ
  momentKnM : ℚ
  type : SupportType
deriving DecidableEq, Repr

/-- One diagram sample of the source. -/
structure DiagramSample where
  x : ℚ
  shear : ℚ
  moment : ℚ
  deflection : ℚ
deriving DecidableEq, Repr

/-- The `AnalysisResult` of the source. -/
structure AnalysisResult where
  nodes : List Node
  reactionTable : List ReactionRow
  diagrams : List DiagramSample
deriving DecidableEq, Repr

/-- The outcome of the analysis: the source returns either an `AnalysisResult`
or an object holding only an error string. -/
inductive Outcome
  | failure (message : String)
  | success (result : AnalysisResult)
deriving DecidableEq, Repr

/-- The single error message of the source's `analysis` error branch. -/
def instabilityMessage : String :=
  "The system is unstable. Add or adjust supports so at least one vertical and one rotational restraint exists."

/-- The local end forces of `computeDiagrams`:
`(local stiffness) * (local displacement sub-vector) - (local fixed-end forces)`. -/
def elementEndForces (e : ElementData) (displacements : ℕ → ℚ) : Fin 4 → ℚ :=
  fun r =>
    (∑ c : Fin 4, e.kLocal r c * displacements (dofMapFn e.index c)) - e.fFixed r

/-- `computeDiagrams` of the source: per element, 41 samples at local
coordinates `x = L*i/40`, `i = 0 .. 40`, with shear `endForce0 - w x`, moment
`endForce1 + endForce0 x - w x²/2` and cubic Hermite deflection; the global
coordinate is the start node position plus `x`. -/
def computeDiagrams (nodes : List Node) (elementData : List ElementData)
    (displacements : ℕ → ℚ) : List DiagramSample :=
  elementData.flatMap (fun e =>
    let endForces := elementEndForces e displacements
    let v1 := displacements (dofMapFn e.index 0)
    let t1 := displacements (dofMapFn e.index 1)
    let v2 := displacements (dofMapFn e.index 2)
    let t2 := displacements (dofMapFn e.index 3)
    (List.range 41).map (fun i =>
      let x := e.length * i / 40
      let r := x / e.length
      let n1 := 1 - 3 * r ^ 2 + 2 * r ^ 3
      let n2 := e.length * (r - 2 * r ^ 2 + r ^ 3)
      let n3 := 3 * r ^ 2 - 2 * r ^ 3
      let n4 := e.length * (-(r ^ 2) + r ^ 3)
      { x := (nodes.getD e.index dfltNode).x + x
        shear := endForces 0 - e.wNPerMm * x
        moment := endForces 1 + endForces 0 * x - e.wNPerMm * x ^ 2 / 2
        deflection := n1 * v1 + n2 * t1 + n3 * v2 + n4 * t2 }))

/-- The expansion of the solved free displacements into the full vector:
`displacements[free[i]] = freeDisplacements[i]`, all other entries zero. Since
the free list has no duplicates this equals an index lookup. -/
def expandDisplacements (free : List ℕ) (xf : ℕ → ℚ) : ℕ → ℚ :=
  fun d => if d ∈ free then xf (free.indexOf d) else 0

/-- The full reaction vector of the source:
`r i = (row i of K) · displacements - F i`, rows of length `dof`. -/
def computeReactions (K : ℕ → ℕ → ℚ) (F : ℕ → ℚ) (dof : ℕ)
    (displacements : ℕ → ℚ) : ℕ → ℚ :=
  fun i => (∑ j ∈ Finset.range dof, K i j * displacements j) - F i

/-- The reaction table of the source: one row per node whose support kind is not
free, with the vertical reaction in kN (divide by 1000) and the moment reaction
in kN·m (divide by 1e6). -/
def reactionTableOf (nodes : List Node) (reactions : ℕ → ℚ) : List ReactionRow :=
  (List.range nodes.length).filterMap (fun i =>
    if (nodes.getD i dfltNode).supportType = SupportType.free then none
    else some
      { positionMm := (nodes.getD i dfltNode).x
        verticalKn := reactions (i * 2) / 1000
        momentKnM := reactions (i * 2 + 1) / 1000000
        type := (nodes.getD i dfltNode).supportType })

/-- The inputs of one analysis run (beam geometry, material, supports, loads). -/
structure BeamInput where
  lengthMm : ℚ
  widthMm : ℚ
  depthMm : ℚ
  youngsModulusMpa : ℚ
  supports : List Support
  pointLoads : List PointLoad
  udls : List Udl
deriving DecidableEq, Repr

/-- The second moment of area of the source: `width * depth³ / 12`. -/
def inertiaOf (inp : BeamInput) : ℚ := inp.widthMm * inp.depthMm ^ 3 / 12

/-- The node list of the analysis pipeline. -/
def nodesOf (inp : BeamInput) : List Node :=
  buildNodes inp.lengthMm inp.supports inp.pointLoads inp.udls

/-- The assembled global system of the analysis pipeline. -/
def asmOf (inp : BeamInput) : Assembled :=
  assembleSystem (nodesOf inp) inp.youngsModulusMpa (inertiaOf inp)
    inp.pointLoads inp.udls

/-- The reduced system of the analysis pipeline. -/
def bcOf (inp : BeamInput) : Reduced :=
  applyBoundaryConditions (nodesOf inp) (asmOf inp).K (asmOf inp).F

/-- The solver call of the analysis pipeline. -/
def solOf (inp : BeamInput) : Option (ℕ → ℚ) :=
  solveLinearSystem (bcOf inp).free.length (bcOf inp).Kff (bcOf inp).Ff

/-- `analysis` of the source: mesh, assembly, reduction, solve; a `null` solver
result becomes the instability failure, otherwise displacements are expanded,
reactions recovered, and the reaction table and diagrams emitted. -/
def analyze (inp : BeamInput) : Outcome :=
  match solOf inp with
  | none => Outcome.failure instabilityMessage
  | some xf =>
    let displacements := expandDisplacements (bcOf inp).free xf
    let reactions := computeReactions (asmOf inp).K (asmOf inp).F
      ((nodesOf inp).length * 2) displacements
    Outcome.success
      { nodes := nodesOf inp
        reactionTable := reactionTableOf (nodesOf inp) reactions
        diagrams := computeDiagrams (nodesOf inp) (asmOf inp).elementData
          displacements }

/-! ### Mesh builder lemmas -/

theorem uniqueSorted_sorted (values : List ℚ) :
    (uniqueSorted values).Sorted (· < ·) := by
  have hle : (uniqueSorted values).Sorted (· ≤ ·) :=
    List.sorted_insertionSort _ values.dedup
  have hnd : (uniqueSorted values).Nodup :=
    ((List.perm_insertionSort _ values.dedup).nodup_iff).mpr (List.nodup_dedup values)
  exact hle.lt_of_le hnd

theorem uniqueSorted_mem (values : List ℚ) (a : ℚ) :
    a ∈ uniqueSorted values ↔ a ∈ values := by
  rw [uniqueSorted]
  rw [(List.perm_insertionSort (· ≤ ·) values.dedup).mem_iff]
  exact List.mem_dedup

theorem buildNodes_map_x (lengthMm : ℚ) (supports : List Support)
    (pointLoads : List PointLoad) (udls : List Udl) :
    (buildNodes lengthMm supports pointLoads udls).map Node.x =
      uniqueSorted
        (([0, lengthMm] ++ supports.map (·.positionMm) ++ pointLoads.map (·.positionMm)
          ++ udls.flatMap (fun udl => [udl.startMm, udl.endMm])).filter
            (fun pos => 0 ≤ pos ∧ pos ≤ lengthMm)) := by
  rw [buildNodes, List.map_map]
  exact List.map_id _

theorem buildNodes_sorted (lengthMm : ℚ) (supports : List Support)
    (pointLoads : List PointLoad) (udls : List Udl) :
    ((buildNodes lengthMm supports pointLoads udls).map Node.x).Sorted (· < ·) := by
  rw [buildNodes_map_x]
  exact uniqueSorted_sorted _

theorem buildNodes_mem_x (lengthMm : ℚ) (supports : List Support)
    (pointLoads : List PointLoad) (udls : List Udl) (pos : ℚ) :
    (∃ nd ∈ buildNodes lengthMm supports pointLoads udls, nd.x = pos) ↔
      ((pos = 0 ∨ pos = lengthMm ∨ (∃ s ∈ supports, s.positionMm = pos) ∨
        (∃ pl ∈ pointLoads, pl.positionMm = pos) ∨
        (∃ u ∈ udls, u.startMm = pos ∨ u.endMm = pos)) ∧
        0 ≤ pos ∧ pos ≤ lengthMm) := by
  have hx : (∃ nd ∈ buildNodes lengthMm supports pointLoads udls, nd.x = pos) ↔
      pos ∈ (buildNodes lengthMm supports pointLoads udls).map Node.x := by
    constructor
    · rintro ⟨nd, hnd, rfl⟩; exact List.mem_map_of_mem _ hnd
    · intro h
      obtain ⟨nd, hnd, hxeq⟩ := List.mem_map.mp h
      exact ⟨nd, hnd, hxeq⟩
  rw [hx, buildNodes_map_x, uniqueSorted_mem, List.mem_filter]
  simp only [List.mem_append, List.mem_map, List.mem_flatMap, List.mem_cons,
    List.not_mem_nil, or_false, decide_eq_true_eq]
  constructor
  · rintro ⟨hmem, hrange⟩
    refine ⟨?_, hrange.1, hrange.2⟩
    rcases hmem with (((h | h) | ⟨s, hs, h⟩) | ⟨pl, hpl, h⟩) | ⟨u, hu, h | h⟩
    · exact Or.inl h
    · exact Or.inr (Or.inl h)
    · exact Or.inr (Or.inr (Or.inl ⟨s, hs, h⟩))
    · exact Or.inr (Or.inr (Or.inr (Or.inl ⟨pl, hpl, h⟩)))
    · exact Or.inr (Or.inr (Or.inr (Or.inr ⟨u, hu, Or.inl h.symm⟩)))
    · exact Or.inr (Or.inr (Or.inr (Or.inr ⟨u, hu, Or.inr h.symm⟩)))
  · rintro ⟨hmem, h0, hL⟩
    refine ⟨?_, h0, hL⟩
    rcases hmem with h | h | ⟨s, hs, h⟩ | ⟨pl, hpl, h⟩ | ⟨u, hu, h | h⟩
    · exact Or.inl (Or.inl (Or.inl (Or.inl h)))
    · exact Or.inl (Or.inl (Or.inl (Or.inr h)))
    · exact Or.inl (Or.inl (Or.inr ⟨s, hs, h⟩))
    · exact Or.inl (Or.inr ⟨pl, hpl, h⟩)
    · exact Or.inr ⟨u, hu, Or.inl h.symm⟩
    · exact Or.inr ⟨u, hu, Or.inr h.symm⟩

theorem buildNodes_kind (lengthMm : ℚ) (supports : List Support)
    (pointLoads : List PointLoad) (udls : List Udl) :
    ∀ nd ∈ buildNodes lengthMm supports pointLoads udls,
      nd.supportType =
        ((supports.find? (fun item => item.positionMm = nd.x)).map (·.type)).getD
          SupportType.free := by
  intro nd hnd
  rw [buildNodes] at hnd
  simp only [List.mem_map] at hnd
  obtain ⟨pos, _, rfl⟩ := hnd
  rfl

/-- The first index of a `find?` hit: the returned element is in the list, at an
index before which no element satisfies the predicate. -/
theorem find?_first {α : Type} {p : α → Bool} :
    ∀ {l : List α} {a : α}, l.find? p = some a →
      ∃ i, ∃ hi : i < l.length, l.get ⟨i, hi⟩ = a ∧ p a = true ∧
        ∀ j, j < i → p (l.getD j a) = false := by
  intro l
  induction l with
  | nil => intro a h; simp [List.find?] at h
  | cons b t ih =>
    intro a h
    by_cases hb : p b = true
    · rw [List.find?_cons_of_pos _ hb] at h
      simp only [Option.some.injEq] at h
      subst h
      exact ⟨0, by simp, rfl, hb, fun j hj => absurd hj (Nat.not_lt_zero j)⟩
    · rw [List.find?_cons_of_neg _ hb] at h
      obtain ⟨i, hi, hget, hpa, hbefore⟩ := ih h
      refine ⟨i + 1, by simpa using Nat.succ_lt_succ hi, by simpa using hget, hpa, ?_⟩
      intro j hj
      cases j with
      | zero => simpa using eq_false_of_ne_true (by simpa using hb)
      | succ j' => simpa using hbefore j' (by omega)

/-- C5: the mesh builder returns the strictly ascending, duplicate-free sequence
of the in-range candidate positions (0, the length, support positions,
point-load positions, UDL endpoints), and each node's kind is that of a support
definition at that exact position, else free. -/
theorem spec_c5_mesh_builder (lengthMm : ℚ) (supports : List Support)
    (pointLoads : List PointLoad) (udls : List Udl) :
    ((buildNodes lengthMm supports pointLoads udls).map Node.x).Sorted (· < ·) ∧
    (∀ pos : ℚ, (∃ nd ∈ buildNodes lengthMm supports pointLoads udls, nd.x = pos) ↔
      ((pos = 0 ∨ pos = lengthMm ∨ (∃ s ∈ supports, s.positionMm = pos) ∨
        (∃ pl ∈ pointLoads, pl.positionMm = pos) ∨
        (∃ u ∈ udls, u.startMm = pos ∨ u.endMm = pos)) ∧
        0 ≤ pos ∧ pos ≤ lengthMm)) ∧
    (∀ nd ∈ buildNodes lengthMm supports pointLoads udls,
      (∃ s ∈ supports, s.positionMm = nd.x ∧ nd.supportType = s.type) ∨
      ((∀ s ∈ supports, s.positionMm ≠ nd.x) ∧ nd.supportType = SupportType.free)) := by
  refine ⟨buildNodes_sorted lengthMm supports pointLoads udls,
    fun pos => buildNodes_mem_x lengthMm supports pointLoads udls pos, ?_⟩
  intro nd hnd
  have hk := buildNodes_kind lengthMm supports pointLoads udls nd hnd
  cases hfind : supports.find? (fun item => item.positionMm = nd.x) with
  | none =>
    refine Or.inr ⟨?_, by rw [hk, hfind]; rfl⟩
    intro s hs
    have := List.find?_eq_none.mp hfind s hs
    simpa using this
  | some s =>
    refine Or.inl ⟨s, List.mem_of_find?_eq_some hfind, ?_, by rw [hk, hfind]; rfl⟩
    have := List.find?_some hfind
    simpa using this

/-- C5 witness: the mesh-builder characterization applied to the source's
default configuration. -/
theorem spec_c5_mesh_builder_witness :
    ((buildNodes 3000 [⟨0, SupportType.fixed⟩, ⟨3000, SupportType.pinned⟩]
        [⟨1500, 8⟩] [⟨500, 2500, 4⟩]).map Node.x).Sorted (· < ·) :=
  (spec_c5_mesh_builder 3000 [⟨0, SupportType.fixed⟩, ⟨3000, SupportType.pinned⟩]
    [⟨1500, 8⟩] [⟨500, 2500, 4⟩]).1

/-- C8 counterexample: two support definitions collide at position 0, pinned
first and fixed second; the node at 0 gets the FIRST kind (pinned), not the
last (fixed), so "last wins" is false. -/
theorem spec_c8_counterexample :
    buildNodes 10 [⟨0, SupportType.pinned⟩, ⟨0, SupportType.fixed⟩] [] [] =
      [⟨0, SupportType.pinned⟩, ⟨10, SupportType.free⟩] ∧
    SupportType.pinned ≠ SupportType.fixed := by
  constructor
  · decide
  · decide

/-- C8 amended: at a mesh position where several support definitions coincide,
the node gets the kind of the FIRST matching support definition in input order
(first wins); with no match the node is free. -/
theorem spec_c8_first_match_wins (lengthMm : ℚ) (supports : List Support)
    (pointLoads : List PointLoad) (udls : List Udl) :
    ∀ nd ∈ buildNodes lengthMm supports pointLoads udls,
      ((∀ s ∈ supports, s.positionMm ≠ nd.x) ∧ nd.supportType = SupportType.free) ∨
      (∃ i, ∃ hi : i < supports.length,
        (supports.get ⟨i, hi⟩).positionMm = nd.x ∧
        nd.supportType = (supports.get ⟨i, hi⟩).type ∧
        ∀ j, j < i → (supports.getD j ⟨0, SupportType.free⟩).positionMm ≠ nd.x) := by
  intro nd hnd
  have hk := buildNodes_kind lengthMm supports pointLoads udls nd hnd
  cases hfind : supports.find? (fun item => item.positionMm = nd.x) with
  | none =>
    refine Or.inl ⟨?_, by rw [hk, hfind]; rfl⟩
    intro s hs
    have := List.find?_eq_none.mp hfind s hs
    simpa using this
  | some s =>
    obtain ⟨i, hi, hget, hpa, hbefore⟩ := find?_first hfind
    refine Or.inr ⟨i, hi, ?_, ?_, ?_⟩
    · rw [hget]; simpa using hpa
    · rw [hk, hfind, hget]; rfl
    · intro j hj
      have hjlen : j < supports.length := lt_trans hj hi
      have := hbefore j hj
      rw [List.getD_eq_getElem _ _ hjlen] at this ⊢
      simpa using this

/-- C8 amended witness: applied to the colliding-supports example; the node at 0
carries the first support's kind. -/
theorem spec_c8_first_match_wins_witness :
    (⟨0, SupportType.pinned⟩ : Node) ∈
      buildNodes 10 [⟨0, SupportType.pinned⟩, ⟨0, SupportType.fixed⟩] [] [] ∧
    (((∀ s ∈ [(⟨0, SupportType.pinned⟩ : Support), ⟨0, SupportType.fixed⟩],
        s.positionMm ≠ (⟨0, SupportType.pinned⟩ : Node).x) ∧
        (⟨0, SupportType.pinned⟩ : Node).supportType = SupportType.free) ∨
      (∃ i, ∃ hi : i < ([(⟨0, SupportType.pinned⟩ : Support), ⟨0, SupportType.fixed⟩]).length,
        (([(⟨0, SupportType.pinned⟩ : Support), ⟨0, SupportType.fixed⟩]).get ⟨i, hi⟩).positionMm =
          (⟨0, SupportType.pinned⟩ : Node).x ∧
        (⟨0, SupportType.pinned⟩ : Node).supportType =
          (([(⟨0, SupportType.pinned⟩ : Support), ⟨0, SupportType.fixed⟩]).get ⟨i, hi⟩).type ∧
        ∀ j, j < i →
          (([(⟨0, SupportType.pinned⟩ : Support), ⟨0, SupportType.fixed⟩]).getD j
            ⟨0, SupportType.free⟩).positionMm ≠ (⟨0, SupportType.pinned⟩ : Node).x)) :=
  ⟨by decide,
    spec_c8_first_match_wins 10 [⟨0, SupportType.pinned⟩, ⟨0, SupportType.fixed⟩] [] []
      ⟨0, SupportType.pinned⟩ (by decide)⟩

/-! ### Assembly closed forms -/

/-- The length `x2 - x1` of element `i` (consecutive node pair `(i, i+1)`). -/
def elemLen (nodes : List Node) (i : ℕ) : ℚ :=
  (nodes.getD (i + 1) dfltNode).x - (nodes.getD i dfltNode).x

/-- The (sign-flipped) distributed intensity on element `i`. -/
def elemW (udls : List Udl) (nodes : List Node) (i : ℕ) : ℚ :=
  -(getElementUdl udls (nodes.getD i dfltNode).x (nodes.getD (i + 1) dfltNode).x)

/-- The element record pushed by the assembly loop for element `i`. -/
def elemRecord (EI : ℚ) (udls : List Udl) (nodes : List Node) (i : ℕ) :
    ElementData :=
  { index := i
    length := elemLen nodes i
    wNPerMm := elemW udls nodes i
    kLocal := fun r c =>
      kLocalBase (elemLen nodes i) r c * (EI / elemLen nodes i ^ 3)
    fFixed := fFixedVec (elemW udls nodes i) (elemLen nodes i) }

/-- The contribution of element `i` to global stiffness entry `(a, b)`. -/
def elemKContrib (EI : ℚ) (nodes : List Node) (i a b : ℕ) : ℚ :=
  if 0 < elemLen nodes i then
    ∑ r : Fin 4, ∑ c : Fin 4,
      if dofMapFn i r = a ∧ dofMapFn i c = b then
        kLocalBase (elemLen nodes i) r c * (EI / elemLen nodes i ^ 3)
      else 0
  else 0

/-- The contribution of element `i` to global load entry `d`. -/
def elemFContrib (udls : List Udl) (nodes : List Node) (i d : ℕ) : ℚ :=
  if 0 < elemLen nodes i then
    ∑ r : Fin 4,
      if dofMapFn i r = d then fFixedVec (elemW udls nodes i) (elemLen nodes i) r
      else 0
  else 0

theorem assembleStep_K (EI : ℚ) (udls : List Udl) (nodes : List Node)
    (s : Assembled) (i a b : ℕ) :
    (assembleStep EI udls nodes s i).K a b = s.K a b + elemKContrib EI nodes i a b := by
  simp only [assembleStep, elemKContrib, elemLen, elemW]
  by_cases hL : (nodes.getD (i + 1) dfltNode).x - (nodes.getD i dfltNode).x ≤ 0
  · rw [if_pos hL, if_neg (not_lt.mpr hL), add_zero]
  · rw [if_neg hL, if_pos (not_le.mp hL)]

theorem assembleStep_F (EI : ℚ) (udls : List Udl) (nodes : List Node)
    (s : Assembled) (i d : ℕ) :
    (assembleStep EI udls nodes s i).F d = s.F d + elemFContrib udls nodes i d := by
  simp only [assembleStep, elemFContrib, elemLen, elemW]
  by_cases hL : (nodes.getD (i + 1) dfltNode).x - (nodes.getD i dfltNode).x ≤ 0
  · rw [if_pos hL, if_neg (not_lt.mpr hL), add_zero]
  · rw [if_neg hL, if_pos (not_le.mp hL)]

theorem assembleStep_elems (EI : ℚ) (udls : List Udl) (nodes : List Node)
    (s : Assembled) (i : ℕ) :
    (assembleStep EI udls nodes s i).elementData = s.elementData ++
      (if 0 < elemLen nodes i then [elemRecord EI udls nodes i] else []) := by
  simp only [assembleStep, elemRecord, elemLen, elemW]
  by_cases hL : (nodes.getD (i + 1) dfltNode).x - (nodes.getD i dfltNode).x ≤ 0
  · rw [if_pos hL, if_neg (not_lt.mpr hL), List.append_nil]
  · rw [if_neg hL, if_pos (not_le.mp hL)]

theorem assemble_range_foldl (EI : ℚ) (udls : List Udl) (nodes : List Node) :
    ∀ (m : ℕ) (s : Assembled),
      (∀ a b, ((List.range m).foldl (assembleStep EI udls nodes) s).K a b
        = s.K a b + ∑ i ∈ Finset.range m, elemKContrib EI nodes i a b) ∧
      (∀ d, ((List.range m).foldl (assembleStep EI udls nodes) s).F d
        = s.F d + ∑ i ∈ Finset.range m, elemFContrib udls nodes i d) ∧
      ((List.range m).foldl (assembleStep EI udls nodes) s).elementData
        = s.elementData ++ (List.range m).filterMap (fun i =>
            if 0 < elemLen nodes i then some (elemRecord EI udls nodes i) else none) := by
  intro m
  induction m with
  | zero => intro s; simp
  | succ m ih =>
    intro s
    rw [List.range_succ]
    simp only [List.foldl_append, List.foldl_cons, List.foldl_nil]
    obtain ⟨ihK, ihF, ihE⟩ := ih s
    refine ⟨?_, ?_, ?_⟩
    · intro a b
      rw [assembleStep_K, ihK, Finset.sum_range_succ, add_assoc]
    · intro d
      rw [assembleStep_F, ihF, Finset.sum_range_succ, add_assoc]
    · rw [assembleStep_elems, ihE, List.filterMap_append, List.append_assoc]
      congr 1
      simp only [List.filterMap_cons, List.filterMap_nil]
      split_ifs with h
      · rfl
      · rfl

theorem assembleSystem_K (nodes : List Node) (E I : ℚ)
    (pointLoads : List PointLoad) (udls : List Udl) (a b : ℕ) :
    (assembleSystem nodes E I pointLoads udls).K a b
      = ∑ i ∈ Finset.range (nodes.length - 1), elemKContrib (E * I) nodes i a b := by
  rw [assembleSystem]
  rw [(assemble_range_foldl (E * I) udls nodes (nodes.length - 1) _).1 a b]
  simp

theorem assembleSystem_F (nodes : List Node) (E I : ℚ)
    (pointLoads : List PointLoad) (udls : List Udl) (d : ℕ) :
    (assembleSystem nodes E I pointLoads udls).F d
      = (if d % 2 = 0 ∧ d / 2 < nodes.length then mapLoadsToNodes nodes pointLoads (d / 2) else 0)
        + ∑ i ∈ Finset.range (nodes.length - 1), elemFContrib udls nodes i d := by
  rw [assembleSystem]
  rw [(assemble_range_foldl (E * I) udls nodes (nodes.length - 1) _).2.1 d]

theorem assembleSystem_elems (nodes : List Node) (E I : ℚ)
    (pointLoads : List PointLoad) (udls : List Udl) :
    (assembleSystem nodes E I pointLoads udls).elementData
      = (List.range (nodes.length - 1)).filterMap (fun i =>
          if 0 < elemLen nodes i then some (elemRecord (E * I) udls nodes i) else none) := by
  rw [assembleSystem]
  rw [(assemble_range_foldl (E * I) udls nodes (nodes.length - 1) _).2.2]
  simp

/-- C4: the assembler computes, for each consecutive node pair with positive
length, the sign-flipped midpoint-matched UDL intensity, the standard 4x4 local
stiffness matrix scaled by `EI/L³`, and the fixed-end vector
`[wL/2, wL²/12, wL/2, -wL²/12]`; it adds them into the global matrix and load
vector at DOF indices `[2i, 2i+1, 2(i+1), 2(i+1)+1]`, and each point load adds
`-(magnitude * 1000)` to the vertical DOF of the node at its exact position. -/
theorem spec_c4_assembler (nodes : List Node) (E I : ℚ)
    (pointLoads : List PointLoad) (udls : List Udl) :
    ((assembleSystem nodes E I pointLoads udls).elementData
      = (List.range (nodes.length - 1)).filterMap (fun i =>
          if 0 < elemLen nodes i then some (elemRecord (E * I) udls nodes i) else none)) ∧
    (∀ i : ℕ, (elemRecord (E * I) udls nodes i).wNPerMm =
      -(((udls.filter (fun u =>
            u.startMm ≤ ((nodes.getD i dfltNode).x + (nodes.getD (i + 1) dfltNode).x) / 2 ∧
            ((nodes.getD i dfltNode).x + (nodes.getD (i + 1) dfltNode).x) / 2 ≤ u.endMm)).map
          (·.magnitudeKnPerM)).sum) ∧
      (elemRecord (E * I) udls nodes i).kLocal = (fun r c =>
        kLocalBase (elemLen nodes i) r c * (E * I / elemLen nodes i ^ 3)) ∧
      (elemRecord (E * I) udls nodes i).fFixed =
        ![(elemRecord (E * I) udls nodes i).wNPerMm * elemLen nodes i / 2,
          (elemRecord (E * I) udls nodes i).wNPerMm * elemLen nodes i ^ 2 / 12,
          (elemRecord (E * I) udls nodes i).wNPerMm * elemLen nodes i / 2,
          -((elemRecord (E * I) udls nodes i).wNPerMm * elemLen nodes i ^ 2) / 12] ∧
      dofMapFn i = ![i * 2, i * 2 + 1, (i + 1) * 2, (i + 1) * 2 + 1]) ∧
    (∀ a b : ℕ, (assembleSystem nodes E I pointLoads udls).K a b
      = ∑ i ∈ Finset.range (nodes.length - 1),
          if 0 < elemLen nodes i then
            ∑ r : Fin 4, ∑ c : Fin 4,
              if dofMapFn i r = a ∧ dofMapFn i c = b then
                kLocalBase (elemLen nodes i) r c * (E * I / elemLen nodes i ^ 3)
              else 0
          else 0) ∧
    (∀ d : ℕ, (assembleSystem nodes E I pointLoads udls).F d
      = (if d % 2 = 0 ∧ d / 2 < nodes.length then
          (pointLoads.map (fun load =>
            if nodes.findIdx (fun node => node.x = load.positionMm) = d / 2 ∧
                d / 2 < nodes.length
            then -load.magnitudeKn * 1000 else 0)).sum
        else 0)
        + ∑ i ∈ Finset.range (nodes.length - 1),
            if 0 < elemLen nodes i then
              ∑ r : Fin 4,
                if dofMapFn i r = d then
                  fFixedVec (elemW udls nodes i) (elemLen nodes i) r
                else 0
            else 0) := by
  refine ⟨assembleSystem_elems nodes E I pointLoads udls, ?_, ?_, ?_⟩
  · intro i
    refine ⟨?_, rfl, ?_, rfl⟩
    · simp only [elemRecord, elemW, getElementUdl]
    · funext r
      simp only [elemRecord, fFixedVec]
  · intro a b
    rw [assembleSystem_K]
    simp only [elemKContrib]
  · intro d
    rw [assembleSystem_F]
    simp only [elemFContrib, mapLoadsToNodes]

/-- C4 witness: the assembler characterization applied to the source's default
mesh and loads. -/
theorem spec_c4_assembler_witness :
    (assembleSystem [⟨0, SupportType.fixed⟩, ⟨3000, SupportType.pinned⟩]
        10000 1 [⟨1500, 8⟩] [⟨500, 2500, 4⟩]).elementData
      = (List.range (([⟨0, SupportType.fixed⟩,
            (⟨3000, SupportType.pinned⟩ : Node)]).length - 1)).filterMap (fun i =>
          if 0 < elemLen [⟨0, SupportType.fixed⟩, ⟨3000, SupportType.pinned⟩] i then
            some (elemRecord (10000 * 1) [⟨500, 2500, 4⟩]
              [⟨0, SupportType.fixed⟩, ⟨3000, SupportType.pinned⟩] i)
          else none) :=
  (spec_c4_assembler [⟨0, SupportType.fixed⟩, ⟨3000, SupportType.pinned⟩]
    10000 1 [⟨1500, 8⟩] [⟨500, 2500, 4⟩]).1

/-! ### Boundary-condition reduction lemmas -/

theorem mem_constrainedDofs (nodes : List Node) (d : ℕ) :
    d ∈ constrainedDofs nodes ↔
      ∃ i, i < nodes.length ∧
        (((nodes.getD i dfltNode).supportType = SupportType.pinned ∧ d = i * 2) ∨
         ((nodes.getD i dfltNode).supportType = SupportType.fixed ∧
           (d = i * 2 ∨ d = i * 2 + 1))) := by
  rw [constrainedDofs, List.mem_flatMap]
  constructor
  · rintro ⟨i, hi, hd⟩
    rw [List.mem_range] at hi
    refine ⟨i, hi, ?_⟩
    cases hk : (nodes.getD i dfltNode).supportType with
    | free => rw [hk] at hd; exact absurd hd (List.not_mem_nil d)
    | pinned =>
      rw [hk] at hd
      simp only [List.mem_singleton] at hd
      exact Or.inl ⟨rfl, hd⟩
    | fixed =>
      rw [hk] at hd
      simp only [List.mem_cons, List.not_mem_nil, or_false] at hd
      exact Or.inr ⟨rfl, hd⟩
  · rintro ⟨i, hi, hcase⟩
    refine ⟨i, List.mem_range.mpr hi, ?_⟩
    rcases hcase with ⟨hk, hd⟩ | ⟨hk, hd⟩
    · rw [hk, hd]; exact List.mem_singleton.mpr rfl
    · rw [hk]
      rcases hd with hd | hd
      · rw [hd]; exact List.mem_cons_self _ _
      · rw [hd]; exact List.mem_cons_of_mem _ (List.mem_singleton.mpr rfl)

theorem bc_free_eq (nodes : List Node) (K : ℕ → ℕ → ℚ) (F : ℕ → ℚ) :
    (applyBoundaryConditions nodes K F).free =
      (List.range (nodes.length * 2)).filter (fun i => i ∉ constrainedDofs nodes) := rfl

theorem bc_constrained_eq (nodes : List Node) (K : ℕ → ℕ → ℚ) (F : ℕ → ℚ) :
    (applyBoundaryConditions nodes K F).constrained = constrainedDofs nodes := rfl

theorem mem_bc_free (nodes : List Node) (K : ℕ → ℕ → ℚ) (F : ℕ → ℚ) (d : ℕ) :
    d ∈ (applyBoundaryConditions nodes K F).free ↔
      d < nodes.length * 2 ∧ d ∉ constrainedDofs nodes := by
  rw [bc_free_eq, List.mem_filter, List.mem_range]
  simp

theorem bc_free_sorted (nodes : List Node) (K : ℕ → ℕ → ℚ) (F : ℕ → ℚ) :
    (applyBoundaryConditions nodes K F).free.Sorted (· < ·) := by
  rw [bc_free_eq]
  exact (List.pairwise_lt_range _).sublist (List.filter_sublist _)

theorem bc_free_nodup (nodes : List Node) (K : ℕ → ℕ → ℚ) (F : ℕ → ℚ) :
    (applyBoundaryConditions nodes K F).free.Nodup :=
  (bc_free_sorted nodes K F).nodup

theorem bc_Kff (nodes : List Node) (K : ℕ → ℕ → ℚ) (F : ℕ → ℚ) (r c : ℕ) :
    (applyBoundaryConditions nodes K F).Kff r c =
      if r < (applyBoundaryConditions nodes K F).free.length ∧
          c < (applyBoundaryConditions nodes K F).free.length then
        K ((applyBoundaryConditions nodes K F).free.getD r 0)
          ((applyBoundaryConditions nodes K F).free.getD c 0)
      else 0 := rfl

theorem bc_Ff (nodes : List Node) (K : ℕ → ℕ → ℚ) (F : ℕ → ℚ) (r : ℕ) :
    (applyBoundaryConditions nodes K F).Ff r =
      if r < (applyBoundaryConditions nodes K F).free.length then
        F ((applyBoundaryConditions nodes K F).free.getD r 0)
      else 0 := rfl

/-- C6: pinned constrains the vertical DOF only, fixed constrains both, free
constrains none; the free list is the ascending complement inside the DOF
range; the reduced system selects exactly the free rows/columns and entries;
and with nothing constrained the reduced system equals the full system. -/
theorem spec_c6_constraint_reducer (nodes : List Node) (K : ℕ → ℕ → ℚ) (F : ℕ → ℚ) :
    (∀ d, d ∈ (applyBoundaryConditions nodes K F).constrained ↔
      ∃ i, i < nodes.length ∧
        (((nodes.getD i dfltNode).supportType = SupportType.pinned ∧ d = i * 2) ∨
         ((nodes.getD i dfltNode).supportType = SupportType.fixed ∧
           (d = i * 2 ∨ d = i * 2 + 1)))) ∧
    (applyBoundaryConditions nodes K F).free.Sorted (· < ·) ∧
    (∀ d, d ∈ (applyBoundaryConditions nodes K F).free ↔
      d < nodes.length * 2 ∧ d ∉ (applyBoundaryConditions nodes K F).constrained) ∧
    (∀ r c, r < (applyBoundaryConditions nodes K F).free.length →
      c < (applyBoundaryConditions nodes K F).free.length →
      (applyBoundaryConditions nodes K F).Kff r c =
        K ((applyBoundaryConditions nodes K F).free.getD r 0)
          ((applyBoundaryConditions nodes K F).free.getD c 0) ∧
      (applyBoundaryConditions nodes K F).Ff r =
        F ((applyBoundaryConditions nodes K F).free.getD r 0)) ∧
    ((applyBoundaryConditions nodes K F).constrained = [] →
      ∀ a b, a < nodes.length * 2 → b < nodes.length * 2 →
        (applyBoundaryConditions nodes K F).Kff a b = K a b ∧
        (applyBoundaryConditions nodes K F).Ff a = F a) := by
  refine ⟨fun d => by rw [bc_constrained_eq]; exact mem_constrainedDofs nodes d,
    bc_free_sorted nodes K F,
    fun d => by rw [bc_constrained_eq]; exact mem_bc_free nodes K F d, ?_, ?_⟩
  · intro r c hr hc
    rw [bc_Kff, bc_Ff, if_pos ⟨hr, hc⟩, if_pos hr]
    exact ⟨rfl, rfl⟩
  · intro hempty a b ha hb
    have hfree : (applyBoundaryConditions nodes K F).free =
        List.range (nodes.length * 2) := by
      rw [bc_free_eq]
      rw [bc_constrained_eq] at hempty
      rw [hempty]
      simp
    have hlen : (applyBoundaryConditions nodes K F).free.length = nodes.length * 2 := by
      rw [hfree, List.length_range]
    have hga : (applyBoundaryConditions nodes K F).free.getD a 0 = a := by
      rw [hfree, List.getD_eq_getElem _ _ (by simpa using ha), List.getElem_range]
    have hgb : (applyBoundaryConditions nodes K F).free.getD b 0 = b := by
      rw [hfree, List.getD_eq_getElem _ _ (by simpa using hb), List.getElem_range]
    rw [bc_Kff, bc_Ff, if_pos ⟨by omega, by omega⟩, if_pos (by omega), hga, hgb]
    exact ⟨rfl, rfl⟩

/-- C6 witness: in the source's default mesh (fixed at node 0, pinned at node 1)
DOF 3 (the rotation of the pinned node) is free. -/
theorem spec_c6_constraint_reducer_witness :
    (3 : ℕ) ∈ (applyBoundaryConditions
      [⟨0, SupportType.fixed⟩, ⟨3000, SupportType.pinned⟩]
      (fun _ _ => 0) (fun _ => 0)).free :=
  ((spec_c6_constraint_reducer [⟨0, SupportType.fixed⟩, ⟨3000, SupportType.pinned⟩]
    (fun _ _ => 0) (fun _ => 0)).2.2.1 3).mpr ⟨by decide, by decide⟩

/-! ### Determinism (C9) -/

/-- C9: the pipeline is a deterministic pure function of its inputs: identical
inputs produce identical node sequences and identical outcomes (reaction
tables, diagrams, or the identical failure). The source rebuilds every working
structure from scratch per invocation and mutates none of its inputs, which the
pure-function embedding reflects. -/
theorem spec_c9_determinism (inp1 inp2 : BeamInput) (h : inp1 = inp2) :
    nodesOf inp1 = nodesOf inp2 ∧
    analyze inp1 = analyze inp2 := by
  subst h
  exact ⟨rfl, rfl⟩

/-- C9 witness: determinism applied to the source's default configuration. -/
theorem spec_c9_determinism_witness :
    let inp : BeamInput :=
      { lengthMm := 3000, widthMm := 45, depthMm := 190, youngsModulusMpa := 10000,
        supports := [⟨0, SupportType.fixed⟩, ⟨3000, SupportType.pinned⟩],
        pointLoads := [⟨1500, 8⟩], udls := [⟨500, 2500, 4⟩] }
    nodesOf inp = nodesOf inp ∧ analyze inp = analyze inp :=
  spec_c9_determinism _ _ rfl

/-! ### Linear solver: partial pivoting lemmas -/

/-- `v` solves the first `n` equations of the system `(M, x)`. -/
def isSolution (n : ℕ) (M : ℕ → ℕ → ℚ) (x : ℕ → ℚ) (v : ℕ → ℚ) : Prop :=
  ∀ i, i < n → (∑ j ∈ Finset.range n, M i j * v j) = x i

/-- The first `k` columns of `M` agree with the identity matrix on rows `< n`. -/
def ColsId (n k : ℕ) (M : ℕ → ℕ → ℚ) : Prop :=
  ∀ j, j < k → ∀ i, i < n → M i j = if i = j then 1 else 0

theorem pivotScan_mem (g : ℕ → ℚ) :
    ∀ (l : List ℕ) (a : ℕ),
      l.foldl (fun maxRow i => if |g maxRow| < |g i| then i else maxRow) a ∈ a :: l := by
  intro l
  induction l with
  | nil => intro a; simp
  | cons b t ih =>
    intro a
    rw [List.foldl_cons]
    by_cases hab : |g a| < |g b|
    · rw [if_pos hab]
      rcases List.mem_cons.mp (ih b) with h | h
      · rw [h]; exact List.mem_cons_of_mem _ (List.mem_cons_self _ _)
      · exact List.mem_cons_of_mem _ (List.mem_cons_of_mem _ h)
    · rw [if_neg hab]
      rcases List.mem_cons.mp (ih a) with h | h
      · rw [h]; exact List.mem_cons_self _ _
      · exact List.mem_cons_of_mem _ (List.mem_cons_of_mem _ h)

theorem pivotScan_le (g : ℕ → ℚ) :
    ∀ (l : List ℕ) (a : ℕ) (b : ℕ), b ∈ a :: l →
      |g b| ≤ |g (l.foldl (fun maxRow i => if |g maxRow| < |g i| then i else maxRow) a)| := by
  intro l
  induction l with
  | nil =>
    intro a b hb
    rcases List.mem_cons.mp hb with h | h
    · rw [h]; rfl
    · exact absurd h (List.not_mem_nil b)
  | cons c t ih =>
    intro a b hb
    rw [List.foldl_cons]
    have hstep : |g a| ≤ |g (if |g a| < |g c| then c else a)| ∧
        |g c| ≤ |g (if |g a| < |g c| then c else a)| := by
      by_cases hac : |g a| < |g c|
      · rw [if_pos hac]; exact ⟨le_of_lt hac, le_refl _⟩
      · rw [if_neg hac]; exact ⟨le_refl _, not_lt.mp hac⟩
    rcases List.mem_cons.mp hb with h | h
    · rw [h]
      exact le_trans hstep.1 (ih _ _ (List.mem_cons_self _ _))
    · rcases List.mem_cons.mp h with h' | h'
      · rw [h']
        exact le_trans hstep.2 (ih _ _ (List.mem_cons_self _ _))
      · exact ih _ _ (List.mem_cons_of_mem _ h')

theorem pivotRow_bounds (M : ℕ → ℕ → ℚ) (n k : ℕ) (h : k < n) :
    k ≤ pivotRow M n k ∧ pivotRow M n k < n := by
  have hmem := pivotScan_mem (fun i => M i k) (List.range' (k + 1) (n - (k + 1))) k
  rw [pivotRow]
  rcases List.mem_cons.mp hmem with hm | hm
  · rw [hm]; exact ⟨le_refl k, h⟩
  · rw [List.mem_range'_1] at hm
    omega

theorem pivotRow_max (M : ℕ → ℕ → ℚ) (n k : ℕ) (h : k < n) :
    ∀ i, k ≤ i → i < n → |M i k| ≤ |M (pivotRow M n k) k| := by
  intro i hki hin
  rw [pivotRow]
  refine pivotScan_le (fun i => M i k) (List.range' (k + 1) (n - (k + 1))) k i ?_
  rcases Nat.eq_or_lt_of_le hki with heq | hlt
  · rw [← heq]; exact List.mem_cons_self _ _
  · exact List.mem_cons_of_mem _ (List.mem_range'_1.mpr (by omega))

/-! ### Linear solver: row operations preserve the solution set -/

/-- The index permutation realized by swapping rows `k` and `p`. -/
def swapIdx (k p i : ℕ) : ℕ := if i = k then p else if i = p then k else i

theorem swapIdx_invol (k p i : ℕ) : swapIdx k p (swapIdx k p i) = i := by
  simp only [swapIdx]
  split_ifs <;> omega

theorem swapIdx_lt (k p : ℕ) (hk : k < n) (hp : p < n) (i : ℕ) (hi : i < n) :
    swapIdx k p i < n := by
  simp only [swapIdx]
  split_ifs <;> omega

theorem swapRowsM_apply (M : ℕ → ℕ → ℚ) (k p i j : ℕ) :
    swapRowsM M k p i j = M (swapIdx k p i) j := by
  simp only [swapRowsM, swapIdx]
  split_ifs <;> rfl

theorem swapVec_apply (x : ℕ → ℚ) (k p i : ℕ) :
    swapVec x k p i = x (swapIdx k p i) := by
  simp only [swapVec, swapIdx]
  split_ifs <;> rfl

theorem isSolution_swap (n k p : ℕ) (hk : k < n) (hp : p < n)
    (M : ℕ → ℕ → ℚ) (x : ℕ → ℚ) (v : ℕ → ℚ) :
    isSolution n M x v ↔ isSolution n (swapRowsM M k p) (swapVec x k p) v := by
  constructor
  · intro hs i hi
    simp only [swapRowsM_apply, swapVec_apply]
    exact hs (swapIdx k p i) (swapIdx_lt k p hk hp i hi)
  · intro hs i hi
    have h2 := hs (swapIdx k p i) (swapIdx_lt k p hk hp i hi)
    simp only [swapRowsM_apply, swapVec_apply, swapIdx_invol] at h2
    exact h2

theorem scaleM_apply_k (n k : ℕ) (pivot : ℚ) (M : ℕ → ℕ → ℚ)
    (hrow : ∀ j, j < k → M k j = 0) (j : ℕ) (hj : j < n) :
    scaleM n k pivot M k j = M k j / pivot := by
  by_cases hjk : k ≤ j
  · simp only [scaleM]
    rw [if_pos (by refine ⟨?_, hjk, hj⟩; trivial)]
  · simp only [scaleM]
    rw [if_neg (by rintro ⟨-, h2, -⟩; exact hjk h2), hrow j (by omega), zero_div]


theorem scaleM_apply_ne (n k : ℕ) (pivot : ℚ) (M : ℕ → ℕ → ℚ)
    (i j : ℕ) (hik : i ≠ k) : scaleM n k pivot M i j = M i j := by
  simp only [scaleM]
  rw [if_neg (by rintro ⟨h1, -⟩; exact hik h1)]

theorem scaleM_cols (n k : ℕ) (pivot : ℚ) (M : ℕ → ℕ → ℚ)
    (i j : ℕ) (hjk : j < k) : scaleM n k pivot M i j = M i j := by
  simp only [scaleM]
  rw [if_neg (by rintro ⟨-, h2, -⟩; omega)]

theorem isSolution_scale (n k : ℕ) (hkn : k < n) (pivot : ℚ) (hpiv : pivot ≠ 0)
    (M : ℕ → ℕ → ℚ) (x : ℕ → ℚ) (hrow : ∀ j, j < k → M k j = 0) (v : ℕ → ℚ) :
    isSolution n M x v ↔ isSolution n (scaleM n k pivot M) (scaleV k pivot x) v := by
  have hksum : (∑ j ∈ Finset.range n, scaleM n k pivot M k j * v j)
      = (∑ j ∈ Finset.range n, M k j * v j) / pivot := by
    rw [Finset.sum_div]
    refine Finset.sum_congr rfl ?_
    intro j hj
    rw [scaleM_apply_k n k pivot M hrow j (Finset.mem_range.mp hj), div_mul_eq_mul_div]
  have hxk : scaleV k pivot x k = x k / pivot := by
    simp only [scaleV]
    rw [if_pos (by trivial)]
  have hxne : ∀ i, i ≠ k → scaleV k pivot x i = x i := by
    intro i hik
    simp only [scaleV]
    rw [if_neg hik]
  constructor
  · intro hs i hi
    by_cases hik : i = k
    · subst hik
      rw [hksum, hxk, hs i hi]
    · rw [hxne i hik]
      calc (∑ j ∈ Finset.range n, scaleM n k pivot M i j * v j)
          = ∑ j ∈ Finset.range n, M i j * v j := by
            refine Finset.sum_congr rfl ?_
            intro j _
            rw [scaleM_apply_ne n k pivot M i j hik]
        _ = x i := hs i hi
  · intro hs i hi
    by_cases hik : i = k
    · subst hik
      have h2 := hs i hi
      rw [hksum, hxk] at h2
      field_simp [hpiv] at h2
      exact h2
    · have h2 := hs i hi
      rw [hxne i hik] at h2
      calc (∑ j ∈ Finset.range n, M i j * v j)
          = ∑ j ∈ Finset.range n, scaleM n k pivot M i j * v j := by
            refine Finset.sum_congr rfl ?_
            intro j _
            rw [scaleM_apply_ne n k pivot M i j hik]
        _ = x i := h2

theorem elimM_apply_k (n k : ℕ) (M : ℕ → ℕ → ℚ) (j : ℕ) :
    elimM n k M k j = M k j := by
  simp only [elimM]
  rw [if_neg (by rintro ⟨-, h2, -⟩; exact h2 rfl)]

theorem elimM_apply_ne (n k : ℕ) (M : ℕ → ℕ → ℚ)
    (hcols : ∀ j, j < k → M k j = 0)
    (i j : ℕ) (hi : i < n) (hik : i ≠ k) (hj : j < n) :
    elimM n k M i j = M i j - M i k * M k j := by
  by_cases hjk : k ≤ j
  · simp only [elimM]
    rw [if_pos ⟨hi, hik, hjk, hj⟩]
  · simp only [elimM]
    rw [if_neg (by rintro ⟨-, -, h3, -⟩; exact hjk h3), hcols j (by omega), mul_zero,
      sub_zero]

theorem elimM_cols (n k : ℕ) (M : ℕ → ℕ → ℚ) (i j : ℕ) (hjk : j < k) :
    elimM n k M i j = M i j := by
  simp only [elimM]
  rw [if_neg (by rintro ⟨-, -, h3, -⟩; omega)]

theorem elimV_apply_k (n k : ℕ) (M : ℕ → ℕ → ℚ) (x : ℕ → ℚ) :
    elimV n k M x k = x k := by
  simp only [elimV]
  rw [if_neg (by rintro ⟨-, h2⟩; exact h2 rfl)]

theorem elimV_apply_ne (n k : ℕ) (M : ℕ → ℕ → ℚ) (x : ℕ → ℚ)
    (i : ℕ) (hi : i < n) (hik : i ≠ k) :
    elimV n k M x i = x i - M i k * x k := by
  simp only [elimV]
  rw [if_pos ⟨hi, hik⟩]

theorem isSolution_elim (n k : ℕ) (hkn : k < n)
    (M : ℕ → ℕ → ℚ) (x : ℕ → ℚ) (hcols : ∀ j, j < k → M k j = 0) (v : ℕ → ℚ) :
    isSolution n M x v ↔ isSolution n (elimM n k M) (elimV n k M x) v := by
  have hMrow : ∀ i, i < n → i ≠ k →
      (∑ j ∈ Finset.range n, elimM n k M i j * v j)
        = (∑ j ∈ Finset.range n, M i j * v j)
          - M i k * (∑ j ∈ Finset.range n, M k j * v j) := by
    intro i hi hik
    rw [Finset.mul_sum, ← Finset.sum_sub_distrib]
    refine Finset.sum_congr rfl ?_
    intro j hj
    rw [elimM_apply_ne n k M hcols i j hi hik (Finset.mem_range.mp hj)]
    ring
  have hMksum : (∑ j ∈ Finset.range n, elimM n k M k j * v j)
      = ∑ j ∈ Finset.range n, M k j * v j := by
    refine Finset.sum_congr rfl ?_
    intro j _
    rw [elimM_apply_k]
  constructor
  · intro hs i hi
    by_cases hik : i = k
    · subst hik
      rw [hMksum, elimV_apply_k]
      exact hs i hi
    · rw [hMrow i hi hik, hs i hi, hs k hkn, elimV_apply_ne n k M x i hi hik]
  · intro hs i hi
    by_cases hik : i = k
    · subst hik
      have h2 := hs i hi
      rw [hMksum, elimV_apply_k] at h2
      exact h2
    · have hk' := hs k hkn
      rw [hMksum, elimV_apply_k] at hk'
      have hi' := hs i hi
      rw [hMrow i hi hik, hk', elimV_apply_ne n k M x i hi hik] at hi'
      linarith



/-! ### Linear solver: elimination invariant and soundness -/

theorem pivotEps_pos : 0 < pivotEps := by
  rw [pivotEps]
  norm_num

theorem colsId_swap (n k p : ℕ) (hkn : k < n) (hkp : k ≤ p) (hpn : p < n)
    (M : ℕ → ℕ → ℚ) (hInv : ColsId n k M) : ColsId n k (swapRowsM M k p) := by
  intro j hj i hi
  rw [swapRowsM_apply, hInv j hj (swapIdx k p i) (swapIdx_lt k p hkn hpn i hi)]
  refine if_congr ?_ rfl rfl
  simp only [swapIdx]
  split_ifs <;> omega

theorem scaleElim_spec (n k : ℕ) (hkn : k < n) (M1 : ℕ → ℕ → ℚ) (x1 : ℕ → ℚ)
    (hInv1 : ColsId n k M1) (hpivne : M1 k k ≠ 0) :
    ColsId n (k + 1) (elimM n k (scaleM n k (M1 k k) M1)) ∧
    ∀ v, isSolution n M1 x1 v ↔
      isSolution n (elimM n k (scaleM n k (M1 k k) M1))
        (elimV n k (scaleM n k (M1 k k) M1) (scaleV k (M1 k k) x1)) v := by
  have hrow1 : ∀ j, j < k → M1 k j = 0 := by
    intro j hj
    rw [hInv1 j hj k hkn, if_neg (by omega)]
  have hInv2 : ColsId n k (scaleM n k (M1 k k) M1) := by
    intro j hj i hi
    rw [scaleM_cols n k (M1 k k) M1 i j hj]
    exact hInv1 j hj i hi
  have hrow2 : ∀ j, j < k → scaleM n k (M1 k k) M1 k j = 0 := by
    intro j hj
    rw [scaleM_cols n k (M1 k k) M1 k j hj]
    exact hrow1 j hj
  have hM2kk : scaleM n k (M1 k k) M1 k k = 1 := by
    rw [scaleM_apply_k n k (M1 k k) M1 hrow1 k hkn, div_self hpivne]
  constructor
  · intro j hj i hi
    rcases Nat.lt_or_ge j k with hjk | hjk
    · rw [elimM_cols n k (scaleM n k (M1 k k) M1) i j hjk]
      exact hInv2 j hjk i hi
    · have hjeq : j = k := by omega
      rw [hjeq]
      by_cases hik : i = k
      · rw [hik, elimM_apply_k, hM2kk, if_pos (by trivial)]
      · rw [elimM_apply_ne n k (scaleM n k (M1 k k) M1) hrow2 i k hi hik hkn,
          hM2kk, mul_one, sub_self, if_neg hik]
  · intro v
    exact (isSolution_scale n k hkn (M1 k k) hpivne M1 x1 hrow1 v).trans
      (isSolution_elim n k hkn (scaleM n k (M1 k k) M1) (scaleV k (M1 k k) x1)
        hrow2 v)

theorem elimNext_spec (n k : ℕ) (s : GState) (hkn : k < n)
    (hInv : ColsId n k s.M) (hnz : s.M (pivotRow s.M n k) k ≠ 0) :
    ColsId n (k + 1) (elimNext n k s).M ∧
    ∀ v, isSolution n s.M s.x v ↔
      isSolution n (elimNext n k s).M (elimNext n k s).x v := by
  obtain ⟨hkp, hpn⟩ := pivotRow_bounds s.M n k hkn
  have hswapkk : swapRowsM s.M k (pivotRow s.M n k) k k = s.M (pivotRow s.M n k) k := by
    rw [swapRowsM_apply]
    simp [swapIdx]
  have hInv1 := colsId_swap n k (pivotRow s.M n k) hkn hkp hpn s.M hInv
  have hpivne : swapRowsM s.M k (pivotRow s.M n k) k k ≠ 0 := by
    rw [hswapkk]
    exact hnz
  obtain ⟨hCols, hIff⟩ := scaleElim_spec n k hkn (swapRowsM s.M k (pivotRow s.M n k))
    (swapVec s.x k (pivotRow s.M n k)) hInv1 hpivne
  exact ⟨hCols, fun v =>
    (isSolution_swap n k (pivotRow s.M n k) hkn hpn s.M s.x v).trans (hIff v)⟩

theorem gaussGo_stop (n k : ℕ) (s : GState) (h : ¬ k < n) : gaussGo n k s = some s := by
  rw [gaussGo]
  exact dif_neg h

theorem gaussGo_step (n k : ℕ) (s : GState) (h : k < n) :
    gaussGo n k s =
      match elimStep n k s with
      | none => none
      | some s' => gaussGo n (k + 1) s' := by
  rw [gaussGo]
  exact dif_pos h

theorem runSteps_stop (n k m : ℕ) (s : GState) (h : ¬ k < m) :
    runSteps n k m s = some s := by
  rw [runSteps]
  exact dif_neg h

theorem runSteps_step (n k m : ℕ) (s : GState) (h : k < m) :
    runSteps n k m s =
      match elimStep n k s with
      | none => none
      | some s' => runSteps n (k + 1) m s' := by
  rw [runSteps]
  exact dif_pos h

theorem elimStep_none_iff (n k : ℕ) (s : GState) :
    elimStep n k s = none ↔ |s.M (pivotRow s.M n k) k| < pivotEps := by
  simp only [elimStep]
  split_ifs with h
  · simp [h]
  · simp [h]

theorem elimStep_some (n k : ℕ) (s s1 : GState) (h : elimStep n k s = some s1) :
    s1 = elimNext n k s ∧ ¬ |s.M (pivotRow s.M n k) k| < pivotEps := by
  by_cases hc : |s.M (pivotRow s.M n k) k| < pivotEps
  · rw [(elimStep_none_iff n k s).mpr hc] at h
    exact absurd h (by simp)
  · simp only [elimStep] at h
    rw [if_neg hc] at h
    exact ⟨(Option.some.inj h).symm, hc⟩

theorem gaussGo_sound (n : ℕ) :
    ∀ (fuel k : ℕ) (s sf : GState), n - k ≤ fuel → gaussGo n k s = some sf →
      ColsId n k s.M →
      ColsId n n sf.M ∧
      (∀ v, isSolution n s.M s.x v ↔ isSolution n sf.M sf.x v) := by
  intro fuel
  induction fuel with
  | zero =>
    intro k s sf hle hgo hInv
    have hkn : ¬ k < n := by omega
    rw [gaussGo_stop n k s hkn] at hgo
    have hssf := Option.some.inj hgo
    subst hssf
    exact ⟨fun j hj i hi => hInv j (by omega) i hi, fun v => Iff.rfl⟩
  | succ fuel ih =>
    intro k s sf hle hgo hInv
    by_cases hkn : k < n
    · rw [gaussGo_step n k s hkn] at hgo
      cases helim : elimStep n k s with
      | none =>
        rw [helim] at hgo
        exact absurd hgo (by simp)
      | some s1 =>
        rw [helim] at hgo
        obtain ⟨hs1, hcond⟩ := elimStep_some n k s s1 helim
        have hnz : s.M (pivotRow s.M n k) k ≠ 0 := by
          intro h0
          exact hcond (by rw [h0, abs_zero]; exact pivotEps_pos)
        obtain ⟨hInv1, hSol1⟩ := elimNext_spec n k s hkn hInv hnz
        rw [← hs1] at hInv1 hSol1
        obtain ⟨hInvf, hSolf⟩ := ih (k + 1) s1 sf (by omega) hgo hInv1
        exact ⟨hInvf, fun v => (hSol1 v).trans (hSolf v)⟩
    · rw [gaussGo_stop n k s hkn] at hgo
      have hssf := Option.some.inj hgo
      subst hssf
      exact ⟨fun j hj i hi => hInv j (by omega) i hi, fun v => Iff.rfl⟩

theorem isSolution_colsId_full (n : ℕ) (M : ℕ → ℕ → ℚ) (x : ℕ → ℚ)
    (hId : ColsId n n M) (v : ℕ → ℚ) :
    isSolution n M x v ↔ ∀ i, i < n → v i = x i := by
  have hsum : ∀ i, i < n → (∑ j ∈ Finset.range n, M i j * v j) = v i := by
    intro i hi
    have h1 : (∑ j ∈ Finset.range n, M i j * v j)
        = ∑ j ∈ Finset.range n, if i = j then v j else 0 := by
      refine Finset.sum_congr rfl ?_
      intro j hj
      rw [hId j (Finset.mem_range.mp hj) i hi]
      by_cases hij : i = j
      · rw [if_pos hij, if_pos hij, one_mul]
      · rw [if_neg hij, if_neg hij, zero_mul]
    rw [h1, Finset.sum_ite_eq]
    exact if_pos (Finset.mem_range.mpr hi)
  constructor
  · intro h i hi
    rw [← hsum i hi]
    exact h i hi
  · intro h i hi
    rw [hsum i hi]
    exact h i hi

theorem solveLinearSystem_some_sound (n : ℕ) (A : ℕ → ℕ → ℚ) (b : ℕ → ℚ)
    (xf : ℕ → ℚ) (h : solveLinearSystem n A b = some xf) :
    isSolution n A b xf ∧
    (∀ v, isSolution n A b v → ∀ i, i < n → v i = xf i) := by
  rw [solveLinearSystem] at h
  cases hgo : gaussGo n 0 ⟨A, b⟩ with
  | none =>
    rw [hgo] at h
    exact absurd h (by simp)
  | some sf =>
    rw [hgo] at h
    simp only [Option.map] at h
    have hxf := Option.some.inj h
    have hInit : ColsId n 0 (GState.mk A b).M := fun j hj => absurd hj (Nat.not_lt_zero j)
    obtain ⟨hId, hIff⟩ := gaussGo_sound n (n - 0) 0 ⟨A, b⟩ sf le_rfl hgo hInit
    have hfull : ∀ v, isSolution n A b v ↔ ∀ i, i < n → v i = sf.x i := by
      intro v
      exact (hIff v).trans (isSolution_colsId_full n sf.M sf.x hId v)
    subst hxf
    constructor
    · exact (hfull sf.x).mpr (fun i _ => rfl)
    · intro v hv i hi
      exact (hfull v).mp hv i hi

theorem gaussGo_none_iff (n : ℕ) :
    ∀ (fuel k : ℕ) (s : GState), n - k ≤ fuel →
      (gaussGo n k s = none ↔
        ∃ m s', k ≤ m ∧ m < n ∧ runSteps n k m s = some s' ∧
          |s'.M (pivotRow s'.M n m) m| < pivotEps) := by
  intro fuel
  induction fuel with
  | zero =>
    intro k s hle
    have hkn : ¬ k < n := by omega
    rw [gaussGo_stop n k s hkn]
    refine iff_of_false (by simp) ?_
    rintro ⟨m, s', h1, h2, -, -⟩
    omega
  | succ fuel ih =>
    intro k s hle
    by_cases hkn : k < n
    · rw [gaussGo_step n k s hkn]
      cases helim : elimStep n k s with
      | none =>
        refine iff_of_true rfl ?_
        exact ⟨k, s, le_refl k, hkn, runSteps_stop n k k s (lt_irrefl k),
          (elimStep_none_iff n k s).mp helim⟩
      | some s1 =>
        rw [ih (k + 1) s1 (by omega)]
        constructor
        · rintro ⟨m, s', hm1, hm2, hrun, hfail⟩
          refine ⟨m, s', by omega, hm2, ?_, hfail⟩
          rw [runSteps_step n k m s (by omega), helim]
          exact hrun
        · rintro ⟨m, s', hm1, hm2, hrun, hfail⟩
          by_cases hmk : m = k
          · subst hmk
            rw [runSteps_stop n m m s (lt_irrefl m)] at hrun
            have hss' := Option.some.inj hrun
            subst hss'
            rw [(elimStep_none_iff n m s).mpr hfail] at helim
            exact absurd helim (by simp)
          · have hkm : k < m := by omega
            rw [runSteps_step n k m s hkm, helim] at hrun
            exact ⟨m, s', by omega, hm2, hrun, hfail⟩
    · rw [gaussGo_stop n k s hkn]
      refine iff_of_false (by simp) ?_
      rintro ⟨m, s', h1, h2, -, -⟩
      omega

theorem solveLinearSystem_none_iff (n : ℕ) (A : ℕ → ℕ → ℚ) (b : ℕ → ℚ) :
    solveLinearSystem n A b = none ↔
      ∃ m s', m < n ∧ runSteps n 0 m ⟨A, b⟩ = some s' ∧
        ∀ i, m ≤ i → i < n → |s'.M i m| < pivotEps := by
  rw [solveLinearSystem]
  have hmap : (gaussGo n 0 ⟨A, b⟩).map GState.x = none ↔ gaussGo n 0 ⟨A, b⟩ = none := by
    cases gaussGo n 0 ⟨A, b⟩ <;> simp
  rw [hmap, gaussGo_none_iff n (n - 0) 0 ⟨A, b⟩ le_rfl]
  constructor
  · rintro ⟨m, s', -, hm, hrun, hfail⟩
    refine ⟨m, s', hm, hrun, ?_⟩
    intro i hmi hin
    exact lt_of_le_of_lt (pivotRow_max s'.M n m hm i hmi hin) hfail
  · rintro ⟨m, s', hm, hrun, hfail⟩
    obtain ⟨h1, h2⟩ := pivotRow_bounds s'.M n m hm
    exact ⟨m, s', Nat.zero_le m, hm, hrun, hfail _ h1 h2⟩

/-! ### C2: the solver failure signal and the single error kind -/

theorem analyze_failure_iff (inp : BeamInput) (e : String) :
    analyze inp = Outcome.failure e ↔ (solOf inp = none ∧ e = instabilityMessage) := by
  rw [analyze]
  cases hsol : solOf inp with
  | none =>
    constructor
    · intro h
      injection h with h2
      exact ⟨rfl, h2.symm⟩
    · rintro ⟨-, rfl⟩
      rfl
  | some xf =>
    constructor
    · intro h
      exact Outcome.noConfusion h
    · rintro ⟨h2, -⟩
      exact Option.noConfusion h2

/-- C2: the solver returns the failure signal iff at some elimination step every
remaining row's entry in the pivot column is below `1e-9` in absolute value
(the partial-pivoting scan maximizes that absolute value, so this is exactly
"the largest absolute value in the pivot column is below the threshold"); and
the engine surfaces a failure iff the solver failed, always with exactly the
instability message. -/
theorem spec_c2_singularity :
    (∀ (n : ℕ) (A : ℕ → ℕ → ℚ) (b : ℕ → ℚ),
      solveLinearSystem n A b = none ↔
        ∃ m s', m < n ∧ runSteps n 0 m ⟨A, b⟩ = some s' ∧
          ∀ i, m ≤ i → i < n → |s'.M i m| < 1 / 1000000000) ∧
    (∀ inp e, analyze inp = Outcome.failure e ↔
      (solOf inp = none ∧ e = instabilityMessage)) ∧
    instabilityMessage =
      "The system is unstable. Add or adjust supports so at least one vertical and one rotational restraint exists." := by
  refine ⟨?_, analyze_failure_iff, rfl⟩
  intro n A b
  rw [show ((1 : ℚ) / 1000000000) = pivotEps from rfl]
  exact solveLinearSystem_none_iff n A b

/-- C2 witness: the 1x1 zero system fails through the pivot check. -/
theorem spec_c2_singularity_witness :
    solveLinearSystem 1 (fun _ _ => 0) (fun _ => 0) = none :=
  (spec_c2_singularity.1 1 (fun _ _ => 0) (fun _ => 0)).mpr
    ⟨0, ⟨fun _ _ => 0, fun _ => 0⟩, by norm_num,
      runSteps_stop 1 0 0 _ (lt_irrefl 0), by
        intro i h0 h1
        norm_num⟩

/-! ### C10: a fully constrained mesh gives the 0x0 system and a success -/

/-- C10: when every mesh node is fixed, every DOF is constrained: the free list
is empty, the solver runs on the 0x0 system and returns its (empty) vector
rather than the failure signal, every expanded displacement is zero, every
reaction is the negated global load entry, and the analysis succeeds. -/
theorem spec_c10_all_constrained (inp : BeamInput)
    (h : ∀ nd ∈ nodesOf inp, nd.supportType = SupportType.fixed) :
    (bcOf inp).free = [] ∧
    solOf inp = some (bcOf inp).Ff ∧
    (∀ d, expandDisplacements (bcOf inp).free (bcOf inp).Ff d = 0) ∧
    (∀ d, computeReactions (asmOf inp).K (asmOf inp).F ((nodesOf inp).length * 2)
        (expandDisplacements (bcOf inp).free (bcOf inp).Ff) d = -((asmOf inp).F d)) ∧
    (∃ res, analyze inp = Outcome.success res) := by
  have hfree : (bcOf inp).free = [] := by
    rw [bcOf, bc_free_eq]
    refine List.filter_eq_nil_iff.mpr ?_
    intro a ha
    rw [List.mem_range] at ha
    simp only [decide_eq_true_eq, not_not]
    have hnode : a / 2 < (nodesOf inp).length := by omega
    have hmem : (nodesOf inp).getD (a / 2) dfltNode ∈ nodesOf inp := by
      rw [List.getD_eq_getElem _ _ hnode]
      exact List.getElem_mem hnode
    have hkind := h ((nodesOf inp).getD (a / 2) dfltNode) hmem
    refine (mem_constrainedDofs _ a).mpr ⟨a / 2, hnode, Or.inr ⟨hkind, ?_⟩⟩
    omega
  have hn0 : (bcOf inp).free.length = 0 := by rw [hfree]; rfl
  have hsol : solOf inp = some (bcOf inp).Ff := by
    rw [solOf, hn0, solveLinearSystem, gaussGo_stop 0 0 _ (lt_irrefl 0)]
    rfl
  have hdisp : ∀ d, expandDisplacements (bcOf inp).free (bcOf inp).Ff d = 0 := by
    intro d
    rw [expandDisplacements, hfree]
    simp
  refine ⟨hfree, hsol, hdisp, ?_, ?_⟩
  · intro d
    rw [computeReactions]
    rw [Finset.sum_congr rfl (fun j _ => by rw [hdisp j, mul_zero])]
    rw [Finset.sum_const_zero, zero_sub]
  · rw [analyze, hsol]
    exact ⟨_, rfl⟩

/-- The all-fixed example input used by the C10 witness. -/
def bothFixedInput : BeamInput :=
  { lengthMm := 100, widthMm := 12, depthMm := 1, youngsModulusMpa := 1,
    supports := [⟨0, SupportType.fixed⟩, ⟨100, SupportType.fixed⟩],
    pointLoads := [], udls := [] }

/-- C10 witness: the all-fixed two-node beam. -/
theorem spec_c10_all_constrained_witness :
    (∀ nd ∈ nodesOf bothFixedInput, nd.supportType = SupportType.fixed) ∧
    (bcOf bothFixedInput).free = [] ∧
    solOf bothFixedInput = some (bcOf bothFixedInput).Ff ∧
    (∃ res, analyze bothFixedInput = Outcome.success res) :=
  ⟨by decide, (spec_c10_all_constrained bothFixedInput (by decide)).1,
    (spec_c10_all_constrained bothFixedInput (by decide)).2.1,
    (spec_c10_all_constrained bothFixedInput (by decide)).2.2.2.2⟩

/-! ### Sum reindexing helpers for the free-DOF list -/

theorem list_map_sum_eq_range (l : List ℕ) (f : ℕ → ℚ) :
    (l.map f).sum = ∑ p ∈ Finset.range l.length, f (l.getD p 0) := by
  induction l with
  | nil => simp
  | cons a t ih =>
    rw [List.map_cons, List.sum_cons, List.length_cons, Finset.sum_range_succ']
    simp only [List.getD_cons_succ, List.getD_cons_zero]
    rw [← ih]
    exact add_comm _ _

theorem sum_range_filter_mem (N : ℕ) (l : List ℕ) (hnd : l.Nodup)
    (hsub : ∀ x ∈ l, x < N) (g : ℕ → ℚ) :
    (∑ j ∈ Finset.range N, if j ∈ l then g j else 0) = (l.map g).sum := by
  classical
  have h1 : (∑ j ∈ Finset.range N, if j ∈ l then g j else 0)
      = ∑ j ∈ Finset.range N, if j ∈ l.toFinset then g j else 0 := by
    refine Finset.sum_congr rfl ?_
    intro j _
    exact if_congr (List.mem_toFinset).symm rfl rfl
  rw [h1, Finset.sum_ite_mem]
  have h2 : Finset.range N ∩ l.toFinset = l.toFinset := by
    refine Finset.inter_eq_right.mpr ?_
    intro x hx
    exact Finset.mem_range.mpr (hsub x (List.mem_toFinset.mp hx))
  rw [h2]
  exact List.sum_toFinset g hnd

/-- A sum over the free-DOF list equals the full-range sum when the summand
vanishes at every constrained DOF. -/
theorem sum_free_eq_full (nodes : List Node) (K : ℕ → ℕ → ℚ) (F : ℕ → ℚ)
    (g : ℕ → ℚ) (u : ℕ → ℚ)
    (hcon : ∀ d, d ∈ constrainedDofs nodes → u d = 0) :
    (∑ p ∈ Finset.range (applyBoundaryConditions nodes K F).free.length,
      g ((applyBoundaryConditions nodes K F).free.getD p 0)
        * u ((applyBoundaryConditions nodes K F).free.getD p 0))
      = ∑ j ∈ Finset.range (nodes.length * 2), g j * u j := by
  rw [← list_map_sum_eq_range ((applyBoundaryConditions nodes K F).free)
    (fun d => g d * u d)]
  rw [← sum_range_filter_mem (nodes.length * 2)
    ((applyBoundaryConditions nodes K F).free) (bc_free_nodup nodes K F)
    (fun x hx => ((mem_bc_free nodes K F x).mp hx).1) (fun d => g d * u d)]
  refine Finset.sum_congr rfl ?_
  intro j hj
  by_cases hjf : j ∈ (applyBoundaryConditions nodes K F).free
  · rw [if_pos hjf]
  · rw [if_neg hjf]
    have hjc : j ∈ constrainedDofs nodes := by
      by_contra hc
      exact hjf ((mem_bc_free nodes K F j).mpr ⟨Finset.mem_range.mp hj, hc⟩)
    rw [hcon j hjc, mul_zero]

/-! ### C3: kinematic instability is detected -/

/-- The solver fails on the reduced system whenever the full matrix has a
kernel vector that vanishes on the constrained DOFs but not on some free DOF. -/
theorem solveLinearSystem_fail_of_kernel (nodes : List Node)
    (K : ℕ → ℕ → ℚ) (F : ℕ → ℚ) (u : ℕ → ℚ)
    (hker : ∀ i, i < nodes.length * 2 →
      (∑ j ∈ Finset.range (nodes.length * 2), K i j * u j) = 0)
    (hcon : ∀ d, d ∈ constrainedDofs nodes → u d = 0)
    (hnz : ∃ d, d ∈ (applyBoundaryConditions nodes K F).free ∧ u d ≠ 0) :
    solveLinearSystem (applyBoundaryConditions nodes K F).free.length
      (applyBoundaryConditions nodes K F).Kff
      (applyBoundaryConditions nodes K F).Ff = none := by
  by_contra hsome
  obtain ⟨xf, hxf⟩ : ∃ xf, solveLinearSystem
      (applyBoundaryConditions nodes K F).free.length
      (applyBoundaryConditions nodes K F).Kff
      (applyBoundaryConditions nodes K F).Ff = some xf := by
    cases hres : solveLinearSystem (applyBoundaryConditions nodes K F).free.length
        (applyBoundaryConditions nodes K F).Kff
        (applyBoundaryConditions nodes K F).Ff with
    | none => exact absurd hres hsome
    | some xf => exact ⟨xf, rfl⟩
  obtain ⟨hsol, huniq⟩ := solveLinearSystem_some_sound _ _ _ xf hxf
  have hvsol : isSolution (applyBoundaryConditions nodes K F).free.length
      (applyBoundaryConditions nodes K F).Kff
      (applyBoundaryConditions nodes K F).Ff
      (fun p => xf p +
        (if p < (applyBoundaryConditions nodes K F).free.length then
          u ((applyBoundaryConditions nodes K F).free.getD p 0) else 0)) := by
    intro i hi
    have hfi : (applyBoundaryConditions nodes K F).free.getD i 0 < nodes.length * 2 := by
      have hmemi : (applyBoundaryConditions nodes K F).free.getD i 0 ∈
          (applyBoundaryConditions nodes K F).free := by
        rw [List.getD_eq_getElem _ _ hi]
        exact List.getElem_mem hi
      exact ((mem_bc_free nodes K F _).mp hmemi).1
    have hKt : (∑ j ∈ Finset.range (applyBoundaryConditions nodes K F).free.length,
        (applyBoundaryConditions nodes K F).Kff i j *
          (if j < (applyBoundaryConditions nodes K F).free.length then
            u ((applyBoundaryConditions nodes K F).free.getD j 0) else 0)) = 0 := by
      have hstep : (∑ j ∈ Finset.range (applyBoundaryConditions nodes K F).free.length,
          (applyBoundaryConditions nodes K F).Kff i j *
            (if j < (applyBoundaryConditions nodes K F).free.length then
              u ((applyBoundaryConditions nodes K F).free.getD j 0) else 0))
          = ∑ j ∈ Finset.range (applyBoundaryConditions nodes K F).free.length,
              K ((applyBoundaryConditions nodes K F).free.getD i 0)
                ((applyBoundaryConditions nodes K F).free.getD j 0)
                * u ((applyBoundaryConditions nodes K F).free.getD j 0) := by
        refine Finset.sum_congr rfl ?_
        intro j hj
        rw [Finset.mem_range] at hj
        rw [if_pos hj, bc_Kff, if_pos ⟨hi, hj⟩]
      rw [hstep, sum_free_eq_full nodes K F _ u hcon]
      exact hker _ hfi
    have hsplit : (∑ j ∈ Finset.range (applyBoundaryConditions nodes K F).free.length,
        (applyBoundaryConditions nodes K F).Kff i j *
          (xf j + (if j < (applyBoundaryConditions nodes K F).free.length then
            u ((applyBoundaryConditions nodes K F).free.getD j 0) else 0)))
        = (∑ j ∈ Finset.range (applyBoundaryConditions nodes K F).free.length,
            (applyBoundaryConditions nodes K F).Kff i j * xf j)
          + ∑ j ∈ Finset.range (applyBoundaryConditions nodes K F).free.length,
              (applyBoundaryConditions nodes K F).Kff i j *
                (if j < (applyBoundaryConditions nodes K F).free.length then
                  u ((applyBoundaryConditions nodes K F).free.getD j 0) else 0) := by
      rw [← Finset.sum_add_distrib]
      refine Finset.sum_congr rfl ?_
      intro j _
      ring
    rw [hsplit, hKt, add_zero]
    exact hsol i hi
  obtain ⟨d, hdfree, hdnz⟩ := hnz
  have hidx : (applyBoundaryConditions nodes K F).free.indexOf d <
      (applyBoundaryConditions nodes K F).free.length :=
    List.indexOf_lt_length.mpr hdfree
  have hgetd : (applyBoundaryConditions nodes K F).free.getD
      ((applyBoundaryConditions nodes K F).free.indexOf d) 0 = d := by
    rw [List.getD_eq_getElem _ _ hidx]
    exact List.getElem_indexOf hidx
  have hu := huniq _ hvsol _ hidx
  simp only [if_pos hidx, hgetd] at hu
  have : u d = 0 := by linarith
  exact hdnz this

/-- The `x` position of node `i` (with the source's out-of-bounds default). -/
def nodeX (nodes : List Node) (i : ℕ) : ℚ := (nodes.getD i dfltNode).x

/-- The rigid-body rotation displacement field about the point `c`: vertical
DOFs carry `x_i - c`, rotational DOFs carry 1. -/
def rigidRotation (nodes : List Node) (c : ℚ) : ℕ → ℚ :=
  fun d => if d % 2 = 0 then nodeX nodes (d / 2) - c else 1

theorem kLocalBase_affine (L v1 a : ℚ) :
    ∀ r : Fin 4, (∑ c : Fin 4, kLocalBase L r c * (![v1, a, v1 + a * L, a]) c) = 0 := by
  intro r
  fin_cases r <;>
  · rw [Fin.sum_univ_four]
    simp [kLocalBase, Matrix.cons_val_zero, Matrix.cons_val_one, Matrix.head_cons]
    ring

theorem dofMapFn_lt (len e : ℕ) (he : e < len - 1) (c : Fin 4) :
    dofMapFn e c < len * 2 := by
  fin_cases c
  · show e * 2 < len * 2
    omega
  · show e * 2 + 1 < len * 2
    omega
  · show (e + 1) * 2 < len * 2
    omega
  · show (e + 1) * 2 + 1 < len * 2
    omega

theorem rigidRotation_dof (nodes : List Node) (c0 : ℚ) (e : ℕ) :
    rigidRotation nodes c0 (dofMapFn e 0) = nodeX nodes e - c0 ∧
    rigidRotation nodes c0 (dofMapFn e 1) = 1 ∧
    rigidRotation nodes c0 (dofMapFn e 2) = (nodeX nodes e - c0) + elemLen nodes e ∧
    rigidRotation nodes c0 (dofMapFn e 3) = 1 := by
  refine ⟨?_, ?_, ?_, ?_⟩
  · show rigidRotation nodes c0 (e * 2) = _
    rw [rigidRotation]
    rw [if_pos (by omega : (e * 2) % 2 = 0), show (e * 2) / 2 = e by omega]
  · show rigidRotation nodes c0 (e * 2 + 1) = 1
    rw [rigidRotation]
    rw [if_neg (by omega : ¬(e * 2 + 1) % 2 = 0)]
  · show rigidRotation nodes c0 ((e + 1) * 2) = _
    rw [rigidRotation]
    rw [if_pos (by omega : ((e + 1) * 2) % 2 = 0), show ((e + 1) * 2) / 2 = e + 1 by omega]
    show nodeX nodes (e + 1) - c0 = (nodeX nodes e - c0) + (nodeX nodes (e + 1) - nodeX nodes e)
    ring
  · show rigidRotation nodes c0 ((e + 1) * 2 + 1) = 1
    rw [rigidRotation]
    rw [if_neg (by omega : ¬((e + 1) * 2 + 1) % 2 = 0)]

/-- The assembled stiffness matrix annihilates every rigid-body rotation. -/
theorem K_rigidRotation (nodes : List Node) (E I : ℚ)
    (pointLoads : List PointLoad) (udls : List Udl) (c0 : ℚ) :
    ∀ i, (∑ j ∈ Finset.range (nodes.length * 2),
      (assembleSystem nodes E I pointLoads udls).K i j * rigidRotation nodes c0 j) = 0 := by
  intro i
  have h1 : (∑ j ∈ Finset.range (nodes.length * 2),
      (assembleSystem nodes E I pointLoads udls).K i j * rigidRotation nodes c0 j)
      = ∑ j ∈ Finset.range (nodes.length * 2),
          ∑ e ∈ Finset.range (nodes.length - 1),
            elemKContrib (E * I) nodes e i j * rigidRotation nodes c0 j := by
    refine Finset.sum_congr rfl ?_
    intro j _
    rw [assembleSystem_K, Finset.sum_mul]
  rw [h1, Finset.sum_comm]
  refine Finset.sum_eq_zero ?_
  intro e he
  rw [Finset.mem_range] at he
  by_cases hL : 0 < elemLen nodes e
  · have h2 : ∀ j, elemKContrib (E * I) nodes e i j
        = ∑ r : Fin 4, ∑ c : Fin 4,
            if dofMapFn e r = i ∧ dofMapFn e c = j then
              kLocalBase (elemLen nodes e) r c * (E * I / elemLen nodes e ^ 3)
            else 0 := by
      intro j
      rw [elemKContrib, if_pos hL]
    have h3 : (∑ j ∈ Finset.range (nodes.length * 2),
        elemKContrib (E * I) nodes e i j * rigidRotation nodes c0 j)
        = ∑ r : Fin 4, ∑ j ∈ Finset.range (nodes.length * 2),
            (∑ c : Fin 4,
              if dofMapFn e r = i ∧ dofMapFn e c = j then
                kLocalBase (elemLen nodes e) r c * (E * I / elemLen nodes e ^ 3)
              else 0) * rigidRotation nodes c0 j := by
      rw [Finset.sum_comm]
      refine Finset.sum_congr rfl ?_
      intro j _
      rw [h2 j, Finset.sum_mul]
    rw [h3]
    refine Finset.sum_eq_zero ?_
    intro r _
    by_cases hA : dofMapFn e r = i
    · have hswap : (∑ j ∈ Finset.range (nodes.length * 2),
          (∑ c : Fin 4,
            if dofMapFn e r = i ∧ dofMapFn e c = j then
              kLocalBase (elemLen nodes e) r c * (E * I / elemLen nodes e ^ 3)
            else 0) * rigidRotation nodes c0 j)
          = ∑ c : Fin 4, ∑ j ∈ Finset.range (nodes.length * 2),
              (if dofMapFn e r = i ∧ dofMapFn e c = j then
                kLocalBase (elemLen nodes e) r c * (E * I / elemLen nodes e ^ 3)
              else 0) * rigidRotation nodes c0 j := by
        rw [Finset.sum_congr rfl (fun j _ => Finset.sum_mul _ _ _)]
        exact Finset.sum_comm
      rw [hswap]
      have hinner : ∀ c : Fin 4, (∑ j ∈ Finset.range (nodes.length * 2),
          (if dofMapFn e r = i ∧ dofMapFn e c = j then
            kLocalBase (elemLen nodes e) r c * (E * I / elemLen nodes e ^ 3)
          else 0) * rigidRotation nodes c0 j)
          = kLocalBase (elemLen nodes e) r c * (E * I / elemLen nodes e ^ 3)
              * rigidRotation nodes c0 (dofMapFn e c) := by
        intro c
        have hform : ∀ j, (if dofMapFn e r = i ∧ dofMapFn e c = j then
            kLocalBase (elemLen nodes e) r c * (E * I / elemLen nodes e ^ 3)
          else 0) * rigidRotation nodes c0 j
            = if dofMapFn e c = j then
                kLocalBase (elemLen nodes e) r c * (E * I / elemLen nodes e ^ 3)
                  * rigidRotation nodes c0 j
              else 0 := by
          intro j
          rw [if_congr (and_iff_right hA) rfl rfl, ite_mul, zero_mul]
        rw [Finset.sum_congr rfl (fun j _ => hform j), Finset.sum_ite_eq]
        exact if_pos (Finset.mem_range.mpr (dofMapFn_lt nodes.length e he c))
      rw [Fin.sum_univ_four, hinner 0, hinner 1, hinner 2, hinner 3]
      obtain ⟨hu0, hu1, hu2, hu3⟩ := rigidRotation_dof nodes c0 e
      rw [hu0, hu1, hu2, hu3]
      have haff : kLocalBase (elemLen nodes e) r 0 * (nodeX nodes e - c0)
          + kLocalBase (elemLen nodes e) r 1 * 1
          + kLocalBase (elemLen nodes e) r 2 * ((nodeX nodes e - c0) + 1 * elemLen nodes e)
          + kLocalBase (elemLen nodes e) r 3 * 1 = 0 := by
        have h5 := kLocalBase_affine (elemLen nodes e) (nodeX nodes e - c0) 1 r
        rw [Fin.sum_univ_four] at h5
        exact h5
      linear_combination (E * I / elemLen nodes e ^ 3) * haff
    · refine Finset.sum_eq_zero ?_
      intro j _
      have hz : (∑ c : Fin 4,
          if dofMapFn e r = i ∧ dofMapFn e c = j then
            kLocalBase (elemLen nodes e) r c * (E * I / elemLen nodes e ^ 3)
          else 0) = 0 :=
        Finset.sum_eq_zero (fun c _ => if_neg (fun h => hA h.1))
      rw [hz, zero_mul]
  · have h0 : ∀ j, elemKContrib (E * I) nodes e i j = 0 := by
      intro j
      rw [elemKContrib, if_neg hL]
    refine Finset.sum_eq_zero ?_
    intro j _
    rw [h0 j, zero_mul]

/-- The analysis fails whenever every node is free or pinned at the single
abscissa `c0`: the rigid rotation about `c0` is then a kernel vector of the
reduced system that is nonzero at the (free) rotational DOF 1. -/
theorem analyze_fail_of_rotation_center (inp : BeamInput)
    (hlen1 : 0 < (nodesOf inp).length) (c0 : ℚ)
    (hpin : ∀ i, i < (nodesOf inp).length →
      (((nodesOf inp).getD i dfltNode).supportType = SupportType.free ∨
       (((nodesOf inp).getD i dfltNode).supportType = SupportType.pinned ∧
         ((nodesOf inp).getD i dfltNode).x = c0))) :
    analyze inp = Outcome.failure instabilityMessage := by
  have hcon : ∀ d, d ∈ constrainedDofs (nodesOf inp) →
      rigidRotation (nodesOf inp) c0 d = 0 := by
    intro d hd
    obtain ⟨i, hi, hcase⟩ := (mem_constrainedDofs _ d).mp hd
    rcases hpin i hi with hfree | ⟨hpinned, hx⟩
    · exfalso
      rcases hcase with ⟨hpk, -⟩ | ⟨hpk, -⟩ <;> rw [hfree] at hpk <;>
        exact SupportType.noConfusion hpk
    · rcases hcase with ⟨-, hd2⟩ | ⟨hpk, -⟩
      · rw [hd2, rigidRotation]
        rw [if_pos (by omega : (i * 2) % 2 = 0), show (i * 2) / 2 = i by omega,
          nodeX, hx, sub_self]
      · exfalso
        rw [hpinned] at hpk
        exact SupportType.noConfusion hpk
  have hnotmem1 : (1 : ℕ) ∉ constrainedDofs (nodesOf inp) := by
    intro hd
    obtain ⟨i, hi, hcase⟩ := (mem_constrainedDofs _ 1).mp hd
    rcases hpin i hi with hfree | ⟨hpinned, -⟩
    · rcases hcase with ⟨hpk, -⟩ | ⟨hpk, -⟩ <;> rw [hfree] at hpk <;>
        exact SupportType.noConfusion hpk
    · rcases hcase with ⟨-, hd2⟩ | ⟨hpk, -⟩
      · omega
      · rw [hpinned] at hpk
        exact SupportType.noConfusion hpk
  have h1free : (1 : ℕ) ∈ (bcOf inp).free :=
    (mem_bc_free (nodesOf inp) (asmOf inp).K (asmOf inp).F 1).mpr
      ⟨by omega, hnotmem1⟩
  have hone : rigidRotation (nodesOf inp) c0 1 ≠ 0 := by
    rw [rigidRotation, if_neg (by omega : ¬(1 : ℕ) % 2 = 0)]
    exact one_ne_zero
  have hfail := solveLinearSystem_fail_of_kernel (nodesOf inp) (asmOf inp).K
    (asmOf inp).F (rigidRotation (nodesOf inp) c0)
    (fun i _ => K_rigidRotation (nodesOf inp) inp.youngsModulusMpa (inertiaOf inp)
      inp.pointLoads inp.udls c0 i)
    hcon ⟨1, h1free, hone⟩
  rw [analyze, show solOf inp = none from hfail]

/-- C3: with no support at all, or with a single pinned support (all other
nodes free), the engine returns the instability failure and never a numeric
success: the reduced free-free stiffness matrix is singular (it kills a rigid
rotation) and the pivot check detects it. -/
theorem spec_c3_instability (inp : BeamInput) (hlen : 0 < inp.lengthMm)
    (hsup : inp.supports = [] ∨ ∃ p, 0 ≤ p ∧ p ≤ inp.lengthMm ∧
      inp.supports = [{ positionMm := p, type := SupportType.pinned }]) :
    analyze inp = Outcome.failure instabilityMessage := by
  have hlen1 : 0 < (nodesOf inp).length := by
    have hmem0 := (buildNodes_mem_x inp.lengthMm inp.supports inp.pointLoads
      inp.udls 0).mpr ⟨Or.inl rfl, le_refl 0, le_of_lt hlen⟩
    obtain ⟨nd, hnd, -⟩ := hmem0
    exact List.length_pos_of_mem hnd
  rcases hsup with hempty | ⟨p, hp0, hpL, hsingle⟩
  · refine analyze_fail_of_rotation_center inp hlen1 0 ?_
    intro i hi
    left
    have hmem : (nodesOf inp).getD i dfltNode ∈ nodesOf inp := by
      rw [List.getD_eq_getElem _ _ hi]
      exact List.getElem_mem hi
    have hkind := buildNodes_kind inp.lengthMm inp.supports inp.pointLoads
      inp.udls _ hmem
    rw [hkind, hempty]
    rfl
  · refine analyze_fail_of_rotation_center inp hlen1 p ?_
    intro i hi
    have hmem : (nodesOf inp).getD i dfltNode ∈ nodesOf inp := by
      rw [List.getD_eq_getElem _ _ hi]
      exact List.getElem_mem hi
    have hkind := buildNodes_kind inp.lengthMm inp.supports inp.pointLoads
      inp.udls _ hmem
    by_cases hx : p = ((nodesOf inp).getD i dfltNode).x
    · right
      refine ⟨?_, hx.symm⟩
      rw [hkind, hsingle, List.find?_cons_of_pos _ (by simp [hx])]
      rfl
    · left
      rw [hkind, hsingle, List.find?_cons_of_neg _ (by simpa using hx)]
      rfl

/-- The unsupported example beam used by the C3 witness. -/
def noSupportInput : BeamInput :=
  { lengthMm := 10, widthMm := 1, depthMm := 1, youngsModulusMpa := 1,
    supports := [], pointLoads := [], udls := [] }

/-- C3 witness: the unsupported 10 mm beam fails with the instability message. -/
theorem spec_c3_instability_witness :
    (0 : ℚ) < 10 ∧ analyze noSupportInput = Outcome.failure instabilityMessage :=
  ⟨by norm_num, spec_c3_instability noSupportInput (by decide) (Or.inl rfl)⟩

/-! ### C1: global vertical equilibrium, helper lemmas -/

theorem sum_Ico_telescope (a b : ℕ) (f : ℕ → ℚ) (h : a ≤ b) :
    (∑ i ∈ Finset.Ico a b, (f (i + 1) - f i)) = f b - f a := by
  induction b with
  | zero =>
    have ha : a = 0 := by omega
    subst ha
    simp
  | succ b ih =>
    rcases Nat.lt_or_ge a (b + 1) with hab | hab
    · have hab' : a ≤ b := by omega
      rw [Finset.sum_Ico_succ_top hab', ih hab']
      ring
    · have ha : a = b + 1 := by omega
      subst ha
      simp

theorem finset_sum_list_sum {α : Type} (s : Finset ℕ) (l : List α) (f : ℕ → α → ℚ) :
    (∑ i ∈ s, (l.map (f i)).sum) = (l.map (fun a => ∑ i ∈ s, f i a)).sum := by
  induction l with
  | nil => simp
  | cons a t ih =>
    simp only [List.map_cons, List.sum_cons, Finset.sum_add_distrib, ih]

theorem filter_map_sum {α : Type} (l : List α) (p : α → Bool) (f : α → ℚ) :
    ((l.filter p).map f).sum = (l.map (fun a => if p a then f a else 0)).sum := by
  induction l with
  | nil => rfl
  | cons a t ih =>
    rw [List.filter_cons, List.map_cons, List.sum_cons]
    by_cases hpa : p a
    · rw [if_pos hpa, if_pos hpa, List.map_cons, List.sum_cons, ih]
    · rw [if_neg hpa, if_neg hpa, ih, zero_add]

theorem kLocalBase_col_sum (L : ℚ) :
    ∀ c : Fin 4, kLocalBase L 0 c + kLocalBase L 2 c = 0 := by
  intro c
  fin_cases c <;>
    simp [kLocalBase, Matrix.cons_val_zero, Matrix.cons_val_one, Matrix.head_cons]

theorem sum_range_ite_double (len d : ℕ) (v : ℚ) :
    (∑ i ∈ Finset.range len, if d = i * 2 then v else 0)
      = if d % 2 = 0 ∧ d / 2 < len then v else 0 := by
  by_cases hpar : d % 2 = 0
  · have hcong : ∀ i : ℕ, (if d = i * 2 then v else 0) = if d / 2 = i then v else 0 := by
      intro i
      exact if_congr (by omega) rfl rfl
    rw [Finset.sum_congr rfl (fun i _ => hcong i), Finset.sum_ite_eq]
    refine if_congr ?_ rfl rfl
    rw [Finset.mem_range]
    exact ⟨fun h => ⟨hpar, h⟩, fun h => h.2⟩
  · have h1 : (∑ i ∈ Finset.range len, if d = i * 2 then v else 0) = 0 :=
      Finset.sum_eq_zero (fun i _ => if_neg (by omega))
    rw [h1, if_neg (fun h => hpar h.1)]

/-- Summed over all vertical DOFs, every column of the assembled stiffness
matrix vanishes (the element rows for the two vertical DOFs cancel). -/
theorem K_vertical_col_sum (nodes : List Node) (E I : ℚ)
    (pointLoads : List PointLoad) (udls : List Udl) (j : ℕ) :
    (∑ i ∈ Finset.range nodes.length,
      (assembleSystem nodes E I pointLoads udls).K (i * 2) j) = 0 := by
  rw [Finset.sum_congr rfl
    (fun i _ => assembleSystem_K nodes E I pointLoads udls (i * 2) j),
    Finset.sum_comm]
  refine Finset.sum_eq_zero ?_
  intro e he
  rw [Finset.mem_range] at he
  by_cases hL : 0 < elemLen nodes e
  · have h2 : ∀ i : ℕ, elemKContrib (E * I) nodes e (i * 2) j
        = ∑ r : Fin 4, ∑ c : Fin 4,
            if dofMapFn e r = i * 2 ∧ dofMapFn e c = j then
              kLocalBase (elemLen nodes e) r c * (E * I / elemLen nodes e ^ 3)
            else 0 := by
      intro i
      rw [elemKContrib, if_pos hL]
    rw [Finset.sum_congr rfl (fun i _ => h2 i), Finset.sum_comm,
      Finset.sum_congr rfl (fun r _ => Finset.sum_comm), Finset.sum_comm]
    refine Finset.sum_eq_zero ?_
    intro c _
    by_cases hB : dofMapFn e c = j
    · have h3 : ∀ (r : Fin 4) (i : ℕ),
          (if dofMapFn e r = i * 2 ∧ dofMapFn e c = j then
            kLocalBase (elemLen nodes e) r c * (E * I / elemLen nodes e ^ 3)
          else 0)
            = if dofMapFn e r = i * 2 then
                kLocalBase (elemLen nodes e) r c * (E * I / elemLen nodes e ^ 3)
              else 0 := by
        intro r i
        exact if_congr (and_iff_left hB) rfl rfl
      rw [Finset.sum_congr rfl (fun r _ =>
        Finset.sum_congr rfl (fun i _ => h3 r i))]
      rw [Finset.sum_congr rfl (fun r _ => sum_range_ite_double nodes.length
        (dofMapFn e r) (kLocalBase (elemLen nodes e) r c * (E * I / elemLen nodes e ^ 3)))]
      rw [Fin.sum_univ_four]
      have hr0 : ((dofMapFn e 0) % 2 = 0 ∧ (dofMapFn e 0) / 2 < nodes.length) := by
        show (e * 2) % 2 = 0 ∧ (e * 2) / 2 < nodes.length
        omega
      have hr1 : ¬((dofMapFn e 1) % 2 = 0 ∧ (dofMapFn e 1) / 2 < nodes.length) := by
        show ¬((e * 2 + 1) % 2 = 0 ∧ (e * 2 + 1) / 2 < nodes.length)
        omega
      have hr2 : ((dofMapFn e 2) % 2 = 0 ∧ (dofMapFn e 2) / 2 < nodes.length) := by
        show ((e + 1) * 2) % 2 = 0 ∧ ((e + 1) * 2) / 2 < nodes.length
        omega
      have hr3 : ¬((dofMapFn e 3) % 2 = 0 ∧ (dofMapFn e 3) / 2 < nodes.length) := by
        show ¬(((e + 1) * 2 + 1) % 2 = 0 ∧ ((e + 1) * 2 + 1) / 2 < nodes.length)
        omega
      rw [if_pos hr0, if_neg hr1, if_pos hr2, if_neg hr3]
      have hcol := kLocalBase_col_sum (elemLen nodes e) c
      linear_combination (E * I / elemLen nodes e ^ 3) * hcol
    · refine Finset.sum_eq_zero ?_
      intro r _
      exact Finset.sum_eq_zero (fun i _ => if_neg (fun h => hB h.2))
  · have h0 : ∀ i : ℕ, elemKContrib (E * I) nodes e (i * 2) j = 0 := by
      intro i
      rw [elemKContrib, if_neg hL]
    exact Finset.sum_eq_zero (fun i _ => h0 i)

/-- Summed over all vertical DOFs, the assembled load vector collects every
point load once (loads at node positions) plus each element's total
fixed-end shear `w*L`. -/
theorem F_vertical_sum (nodes : List Node) (E I : ℚ)
    (pointLoads : List PointLoad) (udls : List Udl)
    (hloads : ∀ l ∈ pointLoads, ∃ nd ∈ nodes, nd.x = l.positionMm) :
    (∑ i ∈ Finset.range nodes.length,
      (assembleSystem nodes E I pointLoads udls).F (i * 2))
      = (pointLoads.map (fun l => -l.magnitudeKn * 1000)).sum
        + ∑ e ∈ Finset.range (nodes.length - 1),
            (if 0 < elemLen nodes e then elemW udls nodes e * elemLen nodes e
             else 0) := by
  rw [Finset.sum_congr rfl
    (fun i _ => assembleSystem_F nodes E I pointLoads udls (i * 2)),
    Finset.sum_add_distrib]
  congr 1
  · have h1 : ∀ i ∈ Finset.range nodes.length,
        (if (i * 2) % 2 = 0 ∧ (i * 2) / 2 < nodes.length then
          mapLoadsToNodes nodes pointLoads ((i * 2) / 2) else 0)
        = mapLoadsToNodes nodes pointLoads i := by
      intro i hi
      rw [Finset.mem_range] at hi
      rw [if_pos (by omega : (i * 2) % 2 = 0 ∧ (i * 2) / 2 < nodes.length),
        show (i * 2) / 2 = i by omega]
    rw [Finset.sum_congr rfl h1]
    simp only [mapLoadsToNodes]
    rw [finset_sum_list_sum]
    have h2 : ∀ l ∈ pointLoads, (∑ i ∈ Finset.range nodes.length,
        if nodes.findIdx (fun node => node.x = l.positionMm) = i ∧ i < nodes.length
        then -l.magnitudeKn * 1000 else 0) = -l.magnitudeKn * 1000 := by
      intro l hl
      have hfi : nodes.findIdx (fun node => node.x = l.positionMm) < nodes.length := by
        refine List.findIdx_lt_length_of_exists ?_
        obtain ⟨nd, hnd, hx⟩ := hloads l hl
        exact ⟨nd, hnd, by simp [hx]⟩
      have h3 : ∀ i ∈ Finset.range nodes.length,
          (if nodes.findIdx (fun node => node.x = l.positionMm) = i ∧ i < nodes.length
           then -l.magnitudeKn * 1000 else 0)
          = if nodes.findIdx (fun node => node.x = l.positionMm) = i
            then -l.magnitudeKn * 1000 else 0 := by
        intro i hi
        rw [Finset.mem_range] at hi
        exact if_congr (and_iff_left hi) rfl rfl
      rw [Finset.sum_congr rfl h3, Finset.sum_ite_eq,
        if_pos (Finset.mem_range.mpr hfi)]
    rw [List.map_congr_left h2]
  · rw [Finset.sum_comm]
    refine Finset.sum_congr rfl ?_
    intro e he
    rw [Finset.mem_range] at he
    by_cases hL : 0 < elemLen nodes e
    · rw [if_pos hL]
      have h4 : ∀ i : ℕ, elemFContrib udls nodes e (i * 2)
          = ∑ r : Fin 4,
              if dofMapFn e r = i * 2 then
                fFixedVec (elemW udls nodes e) (elemLen nodes e) r
              else 0 := by
        intro i
        rw [elemFContrib, if_pos hL]
      rw [Finset.sum_congr rfl (fun i _ => h4 i), Finset.sum_comm,
        Finset.sum_congr rfl (fun r _ =>
          sum_range_ite_double nodes.length (dofMapFn e r) _),
        Fin.sum_univ_four]
      have hr0 : ((dofMapFn e 0) % 2 = 0 ∧ (dofMapFn e 0) / 2 < nodes.length) := by
        show (e * 2) % 2 = 0 ∧ (e * 2) / 2 < nodes.length
        omega
      have hr1 : ¬((dofMapFn e 1) % 2 = 0 ∧ (dofMapFn e 1) / 2 < nodes.length) := by
        show ¬((e * 2 + 1) % 2 = 0 ∧ (e * 2 + 1) / 2 < nodes.length)
        omega
      have hr2 : ((dofMapFn e 2) % 2 = 0 ∧ (dofMapFn e 2) / 2 < nodes.length) := by
        show ((e + 1) * 2) % 2 = 0 ∧ ((e + 1) * 2) / 2 < nodes.length
        omega
      have hr3 : ¬((dofMapFn e 3) % 2 = 0 ∧ (dofMapFn e 3) / 2 < nodes.length) := by
        show ¬(((e + 1) * 2 + 1) % 2 = 0 ∧ ((e + 1) * 2 + 1) / 2 < nodes.length)
        omega
      rw [if_pos hr0, if_neg hr1, if_pos hr2, if_neg hr3]
      have hv0 : fFixedVec (elemW udls nodes e) (elemLen nodes e) 0
          = elemW udls nodes e * elemLen nodes e / 2 := rfl
      have hv2 : fFixedVec (elemW udls nodes e) (elemLen nodes e) 2
          = elemW udls nodes e * elemLen nodes e / 2 := rfl
      rw [hv0, hv2]
      ring
    · rw [if_neg hL]
      refine Finset.sum_eq_zero ?_
      intro i _
      rw [elemFContrib, if_neg hL]

/-- On a strictly sorted mesh whose positions include `s` and `e` (`s ≤ e`),
the total length of the elements whose midpoint lies in `[s, e]` is `e - s`. -/
theorem covered_length (nodes : List Node)
    (hsorted : (nodes.map Node.x).Sorted (· < ·))
    (s e : ℚ) (hs : ∃ nd ∈ nodes, nd.x = s) (he : ∃ nd ∈ nodes, nd.x = e)
    (hse : s ≤ e) :
    (∑ i ∈ Finset.range (nodes.length - 1),
      (if s ≤ (nodeX nodes i + nodeX nodes (i + 1)) / 2 ∧
          (nodeX nodes i + nodeX nodes (i + 1)) / 2 ≤ e
       then nodeX nodes (i + 1) - nodeX nodes i else 0)) = e - s := by
  have hmono : ∀ i j : ℕ, i < j → j < nodes.length → nodeX nodes i < nodeX nodes j := by
    intro i j hij hj
    have hi : i < nodes.length := lt_trans hij hj
    have h1 := List.pairwise_iff_getElem.mp hsorted i j (by simpa using hi)
      (by simpa using hj) hij
    rw [List.getElem_map, List.getElem_map] at h1
    rw [nodeX, nodeX, List.getD_eq_getElem _ _ hi, List.getD_eq_getElem _ _ hj]
    exact h1
  have hmono' : ∀ i j : ℕ, i ≤ j → j < nodes.length →
      nodeX nodes i ≤ nodeX nodes j := by
    intro i j hij hj
    rcases Nat.eq_or_lt_of_le hij with heq | hlt
    · rw [heq]
    · exact le_of_lt (hmono i j hlt hj)
  have hreflect : ∀ i j : ℕ, i < nodes.length → j < nodes.length →
      nodeX nodes i ≤ nodeX nodes j → i ≤ j := by
    intro i j hi hj hx
    by_contra hij
    exact absurd (hmono j i (by omega) hi) (not_lt.mpr hx)
  obtain ⟨a, ha, hxa⟩ : ∃ a, a < nodes.length ∧ nodeX nodes a = s := by
    obtain ⟨nd, hnd, hx⟩ := hs
    obtain ⟨i, hi, hgi⟩ := List.mem_iff_getElem.mp hnd
    exact ⟨i, hi, by rw [nodeX, List.getD_eq_getElem _ _ hi, hgi, hx]⟩
  obtain ⟨b, hb, hxb⟩ : ∃ b, b < nodes.length ∧ nodeX nodes b = e := by
    obtain ⟨nd, hnd, hx⟩ := he
    obtain ⟨i, hi, hgi⟩ := List.mem_iff_getElem.mp hnd
    exact ⟨i, hi, by rw [nodeX, List.getD_eq_getElem _ _ hi, hgi, hx]⟩
  have hab : a ≤ b := hreflect a b ha hb (by rw [hxa, hxb]; exact hse)
  have hcond : ∀ i, i < nodes.length - 1 →
      ((s ≤ (nodeX nodes i + nodeX nodes (i + 1)) / 2 ∧
        (nodeX nodes i + nodeX nodes (i + 1)) / 2 ≤ e) ↔ (a ≤ i ∧ i + 1 ≤ b)) := by
    intro i hi
    have hi1 : i + 1 < nodes.length := by omega
    have hii : nodeX nodes i < nodeX nodes (i + 1) := hmono i (i + 1) (by omega) hi1
    constructor
    · rintro ⟨h1, h2⟩
      constructor
      · by_contra hai
        push_neg at hai
        have hia : i + 1 ≤ a := by omega
        have hle : nodeX nodes (i + 1) ≤ nodeX nodes a := hmono' _ _ hia ha
        rw [hxa] at hle
        linarith
      · by_contra hbi
        push_neg at hbi
        have hbi' : b ≤ i := by omega
        have hle : nodeX nodes b ≤ nodeX nodes i := hmono' _ _ hbi' (by omega)
        rw [hxb] at hle
        linarith
    · rintro ⟨h1, h2⟩
      constructor
      · have hle : nodeX nodes a ≤ nodeX nodes i := hmono' _ _ h1 (by omega)
        rw [hxa] at hle
        linarith
      · have hle : nodeX nodes (i + 1) ≤ nodeX nodes b := hmono' _ _ h2 hb
        rw [hxb] at hle
        linarith
  have hcong : ∀ i ∈ Finset.range (nodes.length - 1),
      (if s ≤ (nodeX nodes i + nodeX nodes (i + 1)) / 2 ∧
          (nodeX nodes i + nodeX nodes (i + 1)) / 2 ≤ e
       then nodeX nodes (i + 1) - nodeX nodes i else 0)
        = if i ∈ Finset.Ico a b then nodeX nodes (i + 1) - nodeX nodes i else 0 := by
    intro i hi
    refine if_congr ?_ rfl rfl
    rw [Finset.mem_Ico]
    rw [hcond i (Finset.mem_range.mp hi)]
    omega
  rw [Finset.sum_congr rfl hcong, Finset.sum_ite_mem]
  have hinter : Finset.range (nodes.length - 1) ∩ Finset.Ico a b = Finset.Ico a b := by
    refine Finset.inter_eq_right.mpr ?_
    intro i hi
    rw [Finset.mem_Ico] at hi
    rw [Finset.mem_range]
    omega
  rw [hinter, sum_Ico_telescope a b (fun i => nodeX nodes i) hab, hxa, hxb]

theorem sum_mul_expandDisp (nodes : List Node) (K : ℕ → ℕ → ℚ) (F : ℕ → ℚ)
    (g : ℕ → ℚ) (xf : ℕ → ℚ) :
    (∑ j ∈ Finset.range (nodes.length * 2),
      g j * expandDisplacements (applyBoundaryConditions nodes K F).free xf j)
      = ∑ p ∈ Finset.range (applyBoundaryConditions nodes K F).free.length,
          g ((applyBoundaryConditions nodes K F).free.getD p 0) * xf p := by
  have h1 : ∀ j, g j * expandDisplacements (applyBoundaryConditions nodes K F).free xf j
      = if j ∈ (applyBoundaryConditions nodes K F).free then
          g j * xf ((applyBoundaryConditions nodes K F).free.indexOf j) else 0 := by
    intro j
    rw [expandDisplacements]
    by_cases hj : j ∈ (applyBoundaryConditions nodes K F).free
    · rw [if_pos hj, if_pos hj]
    · rw [if_neg hj, if_neg hj, mul_zero]
  rw [Finset.sum_congr rfl (fun j _ => h1 j),
    sum_range_filter_mem (nodes.length * 2) _ (bc_free_nodup nodes K F)
      (fun x hx => ((mem_bc_free nodes K F x).mp hx).1) _,
    list_map_sum_eq_range]
  refine Finset.sum_congr rfl ?_
  intro p hp
  rw [Finset.mem_range] at hp
  rw [List.getD_eq_getElem _ _ hp,
    List.indexOf_getElem (bc_free_nodup nodes K F) p hp]

/-- With an exact solve, the recovered reaction residual vanishes at every
free DOF. -/
theorem reactions_free_zero (nodes : List Node) (K : ℕ → ℕ → ℚ) (F : ℕ → ℚ)
    (xf : ℕ → ℚ)
    (hsol : solveLinearSystem (applyBoundaryConditions nodes K F).free.length
      (applyBoundaryConditions nodes K F).Kff
      (applyBoundaryConditions nodes K F).Ff = some xf) :
    ∀ d, d ∈ (applyBoundaryConditions nodes K F).free →
      computeReactions K F (nodes.length * 2)
        (expandDisplacements (applyBoundaryConditions nodes K F).free xf) d = 0 := by
  obtain ⟨hsolution, -⟩ := solveLinearSystem_some_sound _ _ _ xf hsol
  intro d hd
  have hq : (applyBoundaryConditions nodes K F).free.indexOf d <
      (applyBoundaryConditions nodes K F).free.length :=
    List.indexOf_lt_length.mpr hd
  have hgetq : (applyBoundaryConditions nodes K F).free.getD
      ((applyBoundaryConditions nodes K F).free.indexOf d) 0 = d := by
    rw [List.getD_eq_getElem _ _ hq]
    exact List.getElem_indexOf hq
  have hrow := hsolution _ hq
  rw [computeReactions, sum_mul_expandDisp nodes K F (K d) xf]
  have hrow2 : (∑ p ∈ Finset.range (applyBoundaryConditions nodes K F).free.length,
      K d ((applyBoundaryConditions nodes K F).free.getD p 0) * xf p)
      = (applyBoundaryConditions nodes K F).Ff
          ((applyBoundaryConditions nodes K F).free.indexOf d) := by
    rw [← hrow]
    refine Finset.sum_congr rfl ?_
    intro p hp
    rw [Finset.mem_range] at hp
    rw [bc_Kff, if_pos ⟨hq, hp⟩, hgetq]
  rw [hrow2, bc_Ff, if_pos hq, hgetq, sub_self]

theorem filterMap_range_map_sum {β : Type} (m : ℕ) (f : ℕ → Option β) (g : β → ℚ) :
    (((List.range m).filterMap f).map g).sum
      = ∑ i ∈ Finset.range m, ((f i).map g).getD 0 := by
  induction m with
  | zero => simp
  | succ m ih =>
    rw [List.range_succ, List.filterMap_append, List.map_append, List.sum_append,
      Finset.sum_range_succ, ih]
    congr 1
    cases hf : f m with
    | none => simp [List.filterMap_cons, hf]
    | some b => simp [List.filterMap_cons, hf]

theorem reactionTable_vertical_sum (nodes : List Node) (reactions : ℕ → ℚ) :
    ((reactionTableOf nodes reactions).map (·.verticalKn)).sum
      = ∑ i ∈ Finset.range nodes.length,
          (if (nodes.getD i dfltNode).supportType = SupportType.free then 0
           else reactions (i * 2) / 1000) := by
  rw [reactionTableOf, filterMap_range_map_sum]
  refine Finset.sum_congr rfl ?_
  intro i _
  by_cases hfree : (nodes.getD i dfltNode).supportType = SupportType.free
  · rw [if_pos hfree, if_pos hfree]
    rfl
  · rw [if_neg hfree, if_neg hfree]
    rfl

theorem vertical_dof_free_of_free_kind (nodes : List Node) (K : ℕ → ℕ → ℚ)
    (F : ℕ → ℚ) (i : ℕ) (hi : i < nodes.length)
    (hfree : (nodes.getD i dfltNode).supportType = SupportType.free) :
    i * 2 ∈ (applyBoundaryConditions nodes K F).free := by
  refine (mem_bc_free nodes K F (i * 2)).mpr ⟨by omega, ?_⟩
  intro hc
  obtain ⟨i', hi', hcase⟩ := (mem_constrainedDofs nodes (i * 2)).mp hc
  rcases hcase with ⟨hpk, hd⟩ | ⟨hpk, hd⟩
  · have hieq : i' = i := by omega
    rw [hieq, hfree] at hpk
    exact SupportType.noConfusion hpk
  · rcases hd with hd | hd
    · have hieq : i' = i := by omega
      rw [hieq, hfree] at hpk
      exact SupportType.noConfusion hpk
    · omega

theorem ite_list_sum {α : Type} (c : Prop) [Decidable c] (l : List α) (g : α → ℚ) :
    (if c then (l.map g).sum else 0) = (l.map (fun a => if c then g a else 0)).sum := by
  by_cases hc : c
  · rw [if_pos hc]
    exact congrArg _ (List.map_congr_left (fun a _ => (if_pos hc).symm))
  · rw [if_neg hc]
    rw [List.map_congr_left (fun a _ => (if_neg hc : (if c then g a else 0) = 0))]
    simp

theorem nodeX_strictMono (nodes : List Node)
    (hsorted : (nodes.map Node.x).Sorted (· < ·)) :
    ∀ i j : ℕ, i < j → j < nodes.length → nodeX nodes i < nodeX nodes j := by
  intro i j hij hj
  have hi : i < nodes.length := lt_trans hij hj
  have h1 := List.pairwise_iff_getElem.mp hsorted i j (by simpa using hi)
    (by simpa using hj) hij
  rw [List.getElem_map, List.getElem_map] at h1
  rw [nodeX, nodeX, List.getD_eq_getElem _ _ hi, List.getD_eq_getElem _ _ hj]
  exact h1

theorem elemLen_pos_of_sorted (nodes : List Node)
    (hsorted : (nodes.map Node.x).Sorted (· < ·)) (e : ℕ)
    (he : e < nodes.length - 1) : 0 < elemLen nodes e := by
  have h1 : nodeX nodes e < nodeX nodes (e + 1) :=
    nodeX_strictMono nodes hsorted e (e + 1) (by omega) (by omega)
  have h2 : elemLen nodes e = nodeX nodes (e + 1) - nodeX nodes e := rfl
  rw [h2]
  linarith

theorem filter_map_sum_prop {α : Type} (l : List α) (P : α → Prop)
    [DecidablePred P] (f : α → ℚ) :
    ((l.filter (fun a => decide (P a))).map f).sum
      = (l.map (fun a => if P a then f a else 0)).sum := by
  rw [filter_map_sum]
  refine congrArg _ (List.map_congr_left ?_)
  intro a _
  by_cases hP : P a
  · rw [if_pos (by simpa using hP), if_pos hP]
  · rw [if_neg (by simpa using hP), if_neg hP]

/-- The total fixed-end shear over all elements is minus the resultant of all
UDLs: each UDL contributes its intensity times its covered length. -/
theorem udl_resultant (inp : BeamInput)
    (hud : ∀ u ∈ inp.udls, 0 ≤ u.startMm ∧ u.startMm ≤ u.endMm ∧
      u.endMm ≤ inp.lengthMm) :
    (∑ e ∈ Finset.range ((nodesOf inp).length - 1),
      (if 0 < elemLen (nodesOf inp) e then
        elemW inp.udls (nodesOf inp) e * elemLen (nodesOf inp) e else 0))
      = -((inp.udls.map (fun u =>
          u.magnitudeKnPerM * (u.endMm - u.startMm))).sum) := by
  have hsorted := buildNodes_sorted inp.lengthMm inp.supports inp.pointLoads inp.udls
  have hterm : ∀ e ∈ Finset.range ((nodesOf inp).length - 1),
      (if 0 < elemLen (nodesOf inp) e then
        elemW inp.udls (nodesOf inp) e * elemLen (nodesOf inp) e else 0)
        = (inp.udls.map (fun u =>
            if u.startMm ≤ (nodeX (nodesOf inp) e + nodeX (nodesOf inp) (e + 1)) / 2 ∧
               (nodeX (nodesOf inp) e + nodeX (nodesOf inp) (e + 1)) / 2 ≤ u.endMm
            then -u.magnitudeKnPerM *
              (nodeX (nodesOf inp) (e + 1) - nodeX (nodesOf inp) e)
            else 0)).sum := by
    intro e he
    rw [Finset.mem_range] at he
    rw [if_pos (elemLen_pos_of_sorted (nodesOf inp) hsorted e he)]
    have hWsum : elemW inp.udls (nodesOf inp) e
        = -((inp.udls.map (fun u =>
            if u.startMm ≤ (nodeX (nodesOf inp) e + nodeX (nodesOf inp) (e + 1)) / 2 ∧
               (nodeX (nodesOf inp) e + nodeX (nodesOf inp) (e + 1)) / 2 ≤ u.endMm
            then u.magnitudeKnPerM else 0)).sum) := by
      rw [elemW, getElementUdl]
      rw [filter_map_sum_prop inp.udls (fun u =>
        u.startMm ≤ (((nodesOf inp).getD e dfltNode).x
            + ((nodesOf inp).getD (e + 1) dfltNode).x) / 2 ∧
        (((nodesOf inp).getD e dfltNode).x
            + ((nodesOf inp).getD (e + 1) dfltNode).x) / 2 ≤ u.endMm)
        (·.magnitudeKnPerM)]
      rfl
    rw [hWsum]
    have hpush : ∀ u : Udl, u ∈ inp.udls →
        (if u.startMm ≤ (nodeX (nodesOf inp) e + nodeX (nodesOf inp) (e + 1)) / 2 ∧
            (nodeX (nodesOf inp) e + nodeX (nodesOf inp) (e + 1)) / 2 ≤ u.endMm
         then -u.magnitudeKnPerM *
           (nodeX (nodesOf inp) (e + 1) - nodeX (nodesOf inp) e)
         else 0)
        = (-(elemLen (nodesOf inp) e)) *
            (if u.startMm ≤ (nodeX (nodesOf inp) e + nodeX (nodesOf inp) (e + 1)) / 2 ∧
               (nodeX (nodesOf inp) e + nodeX (nodesOf inp) (e + 1)) / 2 ≤ u.endMm
             then u.magnitudeKnPerM else 0) := by
      intro u _
      have hLX : elemLen (nodesOf inp) e
          = nodeX (nodesOf inp) (e + 1) - nodeX (nodesOf inp) e := rfl
      by_cases hcu : u.startMm ≤
          (nodeX (nodesOf inp) e + nodeX (nodesOf inp) (e + 1)) / 2 ∧
          (nodeX (nodesOf inp) e + nodeX (nodesOf inp) (e + 1)) / 2 ≤ u.endMm
      · rw [if_pos hcu, if_pos hcu, hLX]
        ring
      · rw [if_neg hcu, if_neg hcu, mul_zero]
    rw [List.map_congr_left hpush, List.sum_map_mul_left]
    ring
  rw [Finset.sum_congr rfl hterm, finset_sum_list_sum]
  have hperu : ∀ u : Udl, u ∈ inp.udls →
      (∑ e ∈ Finset.range ((nodesOf inp).length - 1),
        if u.startMm ≤ (nodeX (nodesOf inp) e + nodeX (nodesOf inp) (e + 1)) / 2 ∧
           (nodeX (nodesOf inp) e + nodeX (nodesOf inp) (e + 1)) / 2 ≤ u.endMm
        then -u.magnitudeKnPerM *
          (nodeX (nodesOf inp) (e + 1) - nodeX (nodesOf inp) e)
        else 0)
        = -u.magnitudeKnPerM * (u.endMm - u.startMm) := by
    intro u hu
    have hpull : ∀ e : ℕ, (if u.startMm ≤
          (nodeX (nodesOf inp) e + nodeX (nodesOf inp) (e + 1)) / 2 ∧
          (nodeX (nodesOf inp) e + nodeX (nodesOf inp) (e + 1)) / 2 ≤ u.endMm
        then -u.magnitudeKnPerM *
          (nodeX (nodesOf inp) (e + 1) - nodeX (nodesOf inp) e)
        else 0)
        = -u.magnitudeKnPerM *
            (if u.startMm ≤ (nodeX (nodesOf inp) e + nodeX (nodesOf inp) (e + 1)) / 2 ∧
                (nodeX (nodesOf inp) e + nodeX (nodesOf inp) (e + 1)) / 2 ≤ u.endMm
             then nodeX (nodesOf inp) (e + 1) - nodeX (nodesOf inp) e else 0) := by
      intro e
      by_cases hcu : u.startMm ≤
          (nodeX (nodesOf inp) e + nodeX (nodesOf inp) (e + 1)) / 2 ∧
          (nodeX (nodesOf inp) e + nodeX (nodesOf inp) (e + 1)) / 2 ≤ u.endMm
      · rw [if_pos hcu, if_pos hcu]
      · rw [if_neg hcu, if_neg hcu, mul_zero]
    rw [Finset.sum_congr rfl (fun e _ => hpull e), ← Finset.mul_sum]
    have hcov := covered_length (nodesOf inp) hsorted u.startMm u.endMm ?_ ?_ (hud u hu).2.1
    · rw [hcov]
    · refine (buildNodes_mem_x inp.lengthMm inp.supports inp.pointLoads inp.udls
        u.startMm).mpr ?_
      exact ⟨Or.inr (Or.inr (Or.inr (Or.inr ⟨u, hu, Or.inl rfl⟩))),
        (hud u hu).1, le_trans (hud u hu).2.1 (hud u hu).2.2⟩
    · refine (buildNodes_mem_x inp.lengthMm inp.supports inp.pointLoads inp.udls
        u.endMm).mpr ?_
      exact ⟨Or.inr (Or.inr (Or.inr (Or.inr ⟨u, hu, Or.inr rfl⟩))),
        le_trans (hud u hu).1 (hud u hu).2.1, (hud u hu).2.2⟩
  rw [List.map_congr_left hperu]
  have hneg : ∀ u : Udl, u ∈ inp.udls →
      -u.magnitudeKnPerM * (u.endMm - u.startMm)
        = (-1 : ℚ) * (u.magnitudeKnPerM * (u.endMm - u.startMm)) := by
    intro u _
    ring
  rw [List.map_congr_left hneg, List.sum_map_mul_left]
  ring

/-- C1: for every valid configuration on which the analysis succeeds, the sum
of the vertical reactions of the reaction table (kN) equals the sum of the
applied point-load magnitudes (kN) plus the resultant of every UDL (intensity
in kN/m times covered length, i.e. `intensity * (end - start) / 1000` with
millimetre endpoints) — exactly, hence within any tolerance. -/
theorem spec_c1_equilibrium (inp : BeamInput) (res : AnalysisResult)
    (_hsup : ∀ s ∈ inp.supports, 0 ≤ s.positionMm ∧ s.positionMm ≤ inp.lengthMm)
    (hpl : ∀ l ∈ inp.pointLoads, 0 ≤ l.positionMm ∧ l.positionMm ≤ inp.lengthMm)
    (hud : ∀ u ∈ inp.udls, 0 ≤ u.startMm ∧ u.startMm ≤ u.endMm ∧
      u.endMm ≤ inp.lengthMm)
    (hres : analyze inp = Outcome.success res) :
    (res.reactionTable.map (·.verticalKn)).sum
      = (inp.pointLoads.map (·.magnitudeKn)).sum
        + (inp.udls.map (fun u =>
            u.magnitudeKnPerM * (u.endMm - u.startMm) / 1000)).sum := by
  rw [analyze] at hres
  cases hsol : solOf inp with
  | none =>
    rw [hsol] at hres
    exact Outcome.noConfusion hres
  | some xf =>
    rw [hsol] at hres
    injection hres with hres2
    subst hres2
    simp only [asmOf, bcOf]
    rw [reactionTable_vertical_sum]
    have hfz : ∀ i, i < (nodesOf inp).length →
        ((nodesOf inp).getD i dfltNode).supportType = SupportType.free →
        computeReactions
          (assembleSystem (nodesOf inp) inp.youngsModulusMpa (inertiaOf inp)
            inp.pointLoads inp.udls).K
          (assembleSystem (nodesOf inp) inp.youngsModulusMpa (inertiaOf inp)
            inp.pointLoads inp.udls).F
          ((nodesOf inp).length * 2)
          (expandDisplacements
            (applyBoundaryConditions (nodesOf inp)
              (assembleSystem (nodesOf inp) inp.youngsModulusMpa (inertiaOf inp)
                inp.pointLoads inp.udls).K
              (assembleSystem (nodesOf inp) inp.youngsModulusMpa (inertiaOf inp)
                inp.pointLoads inp.udls).F).free xf) (i * 2) = 0 := by
      intro i hi hfr
      exact reactions_free_zero (nodesOf inp) _ _ xf hsol (i * 2)
        (vertical_dof_free_of_free_kind (nodesOf inp) _ _ i hi hfr)
    have hstep : ∀ i ∈ Finset.range (nodesOf inp).length,
        (if ((nodesOf inp).getD i dfltNode).supportType = SupportType.free then 0
         else computeReactions
            (assembleSystem (nodesOf inp) inp.youngsModulusMpa (inertiaOf inp)
              inp.pointLoads inp.udls).K
            (assembleSystem (nodesOf inp) inp.youngsModulusMpa (inertiaOf inp)
              inp.pointLoads inp.udls).F
            ((nodesOf inp).length * 2)
            (expandDisplacements
              (applyBoundaryConditions (nodesOf inp)
                (assembleSystem (nodesOf inp) inp.youngsModulusMpa (inertiaOf inp)
                  inp.pointLoads inp.udls).K
                (assembleSystem (nodesOf inp) inp.youngsModulusMpa (inertiaOf inp)
                  inp.pointLoads inp.udls).F).free xf) (i * 2) / 1000)
          = computeReactions
              (assembleSystem (nodesOf inp) inp.youngsModulusMpa (inertiaOf inp)
                inp.pointLoads inp.udls).K
              (assembleSystem (nodesOf inp) inp.youngsModulusMpa (inertiaOf inp)
                inp.pointLoads inp.udls).F
              ((nodesOf inp).length * 2)
              (expandDisplacements
                (applyBoundaryConditions (nodesOf inp)
                  (assembleSystem (nodesOf inp) inp.youngsModulusMpa (inertiaOf inp)
                    inp.pointLoads inp.udls).K
                  (assembleSystem (nodesOf inp) inp.youngsModulusMpa (inertiaOf inp)
                    inp.pointLoads inp.udls).F).free xf) (i * 2) / 1000 := by
      intro i hi
      rw [Finset.mem_range] at hi
      by_cases hfr : ((nodesOf inp).getD i dfltNode).supportType = SupportType.free
      · rw [if_pos hfr, hfz i hi hfr, zero_div]
      · rw [if_neg hfr]
    rw [Finset.sum_congr rfl hstep, ← Finset.sum_div]
    simp only [computeReactions]
    rw [Finset.sum_sub_distrib]
    have hKpart : (∑ i ∈ Finset.range (nodesOf inp).length,
        ∑ j ∈ Finset.range ((nodesOf inp).length * 2),
          (assembleSystem (nodesOf inp) inp.youngsModulusMpa (inertiaOf inp)
            inp.pointLoads inp.udls).K (i * 2) j *
            expandDisplacements
              (applyBoundaryConditions (nodesOf inp)
                (assembleSystem (nodesOf inp) inp.youngsModulusMpa (inertiaOf inp)
                  inp.pointLoads inp.udls).K
                (assembleSystem (nodesOf inp) inp.youngsModulusMpa (inertiaOf inp)
                  inp.pointLoads inp.udls).F).free xf j) = 0 := by
      rw [Finset.sum_comm]
      refine Finset.sum_eq_zero ?_
      intro j _
      rw [← Finset.sum_mul,
        K_vertical_col_sum (nodesOf inp) inp.youngsModulusMpa (inertiaOf inp)
          inp.pointLoads inp.udls j, zero_mul]
    have hloads : ∀ l ∈ inp.pointLoads, ∃ nd ∈ nodesOf inp, nd.x = l.positionMm := by
      intro l hl
      exact (buildNodes_mem_x inp.lengthMm inp.supports inp.pointLoads inp.udls
        l.positionMm).mpr ⟨Or.inr (Or.inr (Or.inr (Or.inl ⟨l, hl, rfl⟩))),
          (hpl l hl).1, (hpl l hl).2⟩
    rw [hKpart, zero_sub,
      F_vertical_sum (nodesOf inp) inp.youngsModulusMpa (inertiaOf inp)
        inp.pointLoads inp.udls hloads,
      udl_resultant inp hud]
    have hP : (inp.pointLoads.map (fun l => -l.magnitudeKn * 1000)).sum
        = (-1000 : ℚ) * (inp.pointLoads.map (·.magnitudeKn)).sum := by
      have hP1 : ∀ l : PointLoad, l ∈ inp.pointLoads →
          -l.magnitudeKn * 1000 = (-1000 : ℚ) * l.magnitudeKn := by
        intro l _
        ring
      rw [List.map_congr_left hP1, List.sum_map_mul_left]
    have hU : (inp.udls.map (fun u =>
          u.magnitudeKnPerM * (u.endMm - u.startMm) / 1000)).sum
        = (1 / 1000 : ℚ) * (inp.udls.map (fun u =>
            u.magnitudeKnPerM * (u.endMm - u.startMm))).sum := by
      have hU1 : ∀ u : Udl, u ∈ inp.udls →
          u.magnitudeKnPerM * (u.endMm - u.startMm) / 1000
            = (1 / 1000 : ℚ) * (u.magnitudeKnPerM * (u.endMm - u.startMm)) := by
        intro u _
        ring
      rw [List.map_congr_left hU1, List.sum_map_mul_left]
    rw [hP, hU]
    ring

/-- The analysis result of the all-fixed unloaded beam, spelled with the
pipeline functions applied to the solved displacement vector. -/
def bothFixedResult : AnalysisResult :=
  { nodes := nodesOf bothFixedInput
    reactionTable := reactionTableOf (nodesOf bothFixedInput)
      (computeReactions (asmOf bothFixedInput).K (asmOf bothFixedInput).F
        ((nodesOf bothFixedInput).length * 2)
        (expandDisplacements (bcOf bothFixedInput).free (bcOf bothFixedInput).Ff))
    diagrams := computeDiagrams (nodesOf bothFixedInput)
      (asmOf bothFixedInput).elementData
      (expandDisplacements (bcOf bothFixedInput).free (bcOf bothFixedInput).Ff) }

theorem analyze_bothFixed : analyze bothFixedInput = Outcome.success bothFixedResult := by
  have hn0 : (bcOf bothFixedInput).free.length = 0 := by decide
  have hsol : solOf bothFixedInput = some (bcOf bothFixedInput).Ff := by
    rw [solOf, hn0, solveLinearSystem, gaussGo_stop 0 0 _ (lt_irrefl 0)]
    rfl
  rw [analyze, hsol]
  rfl

/-- C1 witness: equilibrium applied to the all-fixed unloaded beam (empty load
lists; the engine succeeds and both sides are zero). -/
theorem spec_c1_equilibrium_witness :
    (∀ s ∈ bothFixedInput.supports,
      0 ≤ s.positionMm ∧ s.positionMm ≤ bothFixedInput.lengthMm) ∧
    analyze bothFixedInput = Outcome.success bothFixedResult ∧
    (bothFixedResult.reactionTable.map (·.verticalKn)).sum
      = (bothFixedInput.pointLoads.map (·.magnitudeKn)).sum
        + (bothFixedInput.udls.map (fun u =>
            u.magnitudeKnPerM * (u.endMm - u.startMm) / 1000)).sum :=
  ⟨by decide, analyze_bothFixed,
    spec_c1_equilibrium bothFixedInput bothFixedResult (by decide) (by decide)
      (by decide) analyze_bothFixed⟩

/-! ### C7: the diagram evaluator -/

/-- Default sample record for indexed access into diagram lists. -/
def dfltSample : DiagramSample := ⟨0, 0, 0, 0⟩

/-- The sample the spec describes for element record `e` at sample index `i`:
local coordinate `x = L*i/40`, shear `endForce0 - w·x`, moment
`endForce1 + endForce0·x - w·x²/2` with end forces
`(local stiffness)·(local displacement sub-vector) - (local fixed-end forces)`,
cubic Hermite deflection with `r = x/L`, and global coordinate equal to the
element's start node position plus `x`. -/
def specC7Sample (nodes : List Node) (displacements : ℕ → ℚ) (e : ElementData)
    (i : ℕ) : DiagramSample :=
  let x := e.length * i / 40
  let r := x / e.length
  let endForces := fun j : Fin 4 =>
    (∑ c : Fin 4, e.kLocal j c * displacements (dofMapFn e.index c)) - e.fFixed j
  { x := (nodes.getD e.index dfltNode).x + x
    shear := endForces 0 - e.wNPerMm * x
    moment := endForces 1 + endForces 0 * x - e.wNPerMm * x ^ 2 / 2
    deflection := (1 - 3 * r ^ 2 + 2 * r ^ 3) * displacements (dofMapFn e.index 0)
      + (e.length * (r - 2 * r ^ 2 + r ^ 3)) * displacements (dofMapFn e.index 1)
      + (3 * r ^ 2 - 2 * r ^ 3) * displacements (dofMapFn e.index 2)
      + (e.length * (-(r ^ 2) + r ^ 3)) * displacements (dofMapFn e.index 3) }

/-- The full spec-side sample list: 41 samples per element, in element order. -/
def specC7List (nodes : List Node) (EI : ℚ) (udls : List Udl)
    (disp : ℕ → ℚ) : List DiagramSample :=
  (List.range (nodes.length - 1)).flatMap (fun e =>
    (List.range 41).map (specC7Sample nodes disp (elemRecord EI udls nodes e)))

theorem computeDiagrams_eq_spec (nodes : List Node)
    (elementData : List ElementData) (displacements : ℕ → ℚ) :
    computeDiagrams nodes elementData displacements
      = elementData.flatMap (fun e =>
          (List.range 41).map (specC7Sample nodes displacements e)) := rfl

theorem filterMap_if_all {α β : Type} (P : α → Prop) [DecidablePred P]
    (g : α → β) : ∀ l : List α, (∀ a ∈ l, P a) →
      l.filterMap (fun a => if P a then some (g a) else none) = l.map g := by
  intro l
  induction l with
  | nil => exact fun _ => rfl
  | cons a t ih =>
    intro h
    rw [List.map_cons, ← ih (fun b hb => h b (List.mem_cons_of_mem a hb))]
    simp [List.filterMap_cons, h a (List.mem_cons_self a t)]

/-- For sorted meshes no element is skipped: the assembled element records are
exactly one record per consecutive node pair. -/
theorem elementData_closed (inp : BeamInput) :
    (asmOf inp).elementData
      = (List.range ((nodesOf inp).length - 1)).map
          (fun e => elemRecord (inp.youngsModulusMpa * inertiaOf inp)
            inp.udls (nodesOf inp) e) := by
  rw [asmOf, assembleSystem_elems]
  refine filterMap_if_all _ _ _ ?_
  intro e he
  rw [List.mem_range] at he
  exact elemLen_pos_of_sorted (nodesOf inp)
    (buildNodes_sorted inp.lengthMm inp.supports inp.pointLoads inp.udls) e he

theorem range_map_getD {α : Type} (m i : ℕ) (g : ℕ → α) (d : α) (hi : i < m) :
    ((List.range m).map g).getD i d = g i := by
  have h1 : i < ((List.range m).map g).length := by simpa using hi
  rw [List.getD_eq_getElem _ _ h1, List.getElem_map, List.getElem_range]

theorem flatMap_range_length {α : Type} (m : ℕ) (f : ℕ → List α)
    (hlen : ∀ e, (f e).length = m) :
    ∀ n : ℕ, ((List.range n).flatMap f).length = n * m := by
  intro n
  induction n with
  | zero => simp
  | succ k ih =>
    rw [List.range_succ, List.flatMap_append, List.length_append, ih]
    simp [hlen, Nat.succ_mul]

theorem flatMap_range_getD {α : Type} (m : ℕ) (f : ℕ → List α) (d : α)
    (hlen : ∀ e, (f e).length = m) :
    ∀ n e i : ℕ, e < n → i < m →
      ((List.range n).flatMap f).getD (m * e + i) d = (f e).getD i d := by
  intro n
  induction n with
  | zero => exact fun e i he _ => absurd he (Nat.not_lt_zero e)
  | succ k ih =>
    intro e i he hi
    rw [List.range_succ, List.flatMap_append]
    by_cases hek : e < k
    · rw [List.getD_append]
      · exact ih e i hek hi
      · rw [flatMap_range_length m f hlen k]
        have h2 : m * (e + 1) ≤ m * k := Nat.mul_le_mul_left m hek
        have h3 : m * e + i < m * (e + 1) := by rw [Nat.mul_succ]; omega
        calc m * e + i < m * (e + 1) := h3
          _ ≤ m * k := h2
          _ = k * m := Nat.mul_comm m k
    · have hek2 : e = k := by omega
      subst hek2
      rw [List.getD_append_right]
      · rw [flatMap_range_length m f hlen e]
        have h4 : m * e + i - e * m = i := by rw [Nat.mul_comm]; omega
        rw [h4]
        simp [List.flatMap_cons, List.flatMap_nil]
      · rw [flatMap_range_length m f hlen e, Nat.mul_comm e m]
        omega

theorem specC7Sample_x (nodes : List Node) (disp : ℕ → ℚ) (EI : ℚ)
    (udls : List Udl) (e i : ℕ) :
    (specC7Sample nodes disp (elemRecord EI udls nodes e) i).x
      = nodeX nodes e + elemLen nodes e * i / 40 := rfl

theorem specC7List_length (nodes : List Node) (EI : ℚ) (udls : List Udl)
    (disp : ℕ → ℚ) :
    (specC7List nodes EI udls disp).length = 41 * (nodes.length - 1) := by
  have hlen : ∀ e : ℕ, ((List.range 41).map (specC7Sample nodes disp
      (elemRecord EI udls nodes e))).length = 41 := by
    intro e
    simp
  rw [specC7List, flatMap_range_length 41 _ hlen (nodes.length - 1)]
  omega

theorem specC7List_getD (nodes : List Node) (EI : ℚ) (udls : List Udl)
    (disp : ℕ → ℚ) (e i : ℕ) (he : e < nodes.length - 1) (hi : i < 41) :
    (specC7List nodes EI udls disp).getD (41 * e + i) dfltSample
      = specC7Sample nodes disp (elemRecord EI udls nodes e) i := by
  have hlen : ∀ e : ℕ, ((List.range 41).map (specC7Sample nodes disp
      (elemRecord EI udls nodes e))).length = 41 := by
    intro e
    simp
  rw [specC7List, flatMap_range_getD 41 _ dfltSample hlen _ e i he hi,
    range_map_getD 41 i _ dfltSample hi]

theorem specC7List_x_lt (nodes : List Node) (EI : ℚ) (udls : List Udl)
    (disp : ℕ → ℚ) (hsorted : (nodes.map Node.x).Sorted (· < ·))
    (e i : ℕ) (he : e < nodes.length - 1) (hi : i < 40) :
    ((specC7List nodes EI udls disp).getD (41 * e + i) dfltSample).x
      < ((specC7List nodes EI udls disp).getD (41 * e + (i + 1)) dfltSample).x := by
  rw [specC7List_getD nodes EI udls disp e i he (by omega),
    specC7List_getD nodes EI udls disp e (i + 1) he (by omega),
    specC7Sample_x, specC7Sample_x]
  have hL : 0 < elemLen nodes e := elemLen_pos_of_sorted nodes hsorted e he
  have h1 : elemLen nodes e * (i : ℚ) < elemLen nodes e * ((i : ℚ) + 1) :=
    mul_lt_mul_of_pos_left (by linarith) hL
  have h2 : elemLen nodes e * (i : ℚ) / 40 < elemLen nodes e * ((i : ℚ) + 1) / 40 :=
    (div_lt_div_iff_of_pos_right (by norm_num)).mpr h1
  have h3 : ((i + 1 : ℕ) : ℚ) = (i : ℚ) + 1 := by push_cast; ring
  rw [h3]
  linarith

theorem specC7List_x_boundary (nodes : List Node) (EI : ℚ) (udls : List Udl)
    (disp : ℕ → ℚ) (e : ℕ) (he : e + 1 < nodes.length - 1) :
    ((specC7List nodes EI udls disp).getD (41 * e + 40) dfltSample).x
      = ((specC7List nodes EI udls disp).getD (41 * (e + 1)) dfltSample).x := by
  rw [← Nat.add_zero (41 * (e + 1))]
  rw [specC7List_getD nodes EI udls disp e 40 (by omega) (by omega),
    specC7List_getD nodes EI udls disp (e + 1) 0 (by omega) (by omega),
    specC7Sample_x, specC7Sample_x]
  have h1 : elemLen nodes e = nodeX nodes (e + 1) - nodeX nodes e := rfl
  rw [h1]
  push_cast
  ring

theorem chain'_le_of_getD (l : List ℚ) (d : ℚ)
    (h : ∀ p, p + 1 < l.length → l.getD p d ≤ l.getD (p + 1) d) :
    List.Chain' (· ≤ ·) l := by
  rw [List.chain'_iff_get]
  intro p hp
  have h2 := h p (by omega)
  rw [List.getD_eq_getElem _ _ (show p < l.length by omega),
    List.getD_eq_getElem _ _ (show p + 1 < l.length by omega)] at h2
  exact h2

theorem specC7List_chain (nodes : List Node) (EI : ℚ) (udls : List Udl)
    (disp : ℕ → ℚ) (hsorted : (nodes.map Node.x).Sorted (· < ·)) :
    List.Chain' (· ≤ ·) ((specC7List nodes EI udls disp).map DiagramSample.x) := by
  apply chain'_le_of_getD _ 0
  intro p hp
  rw [List.length_map, specC7List_length] at hp
  have hp1 : p < (specC7List nodes EI udls disp).length := by
    rw [specC7List_length]
    omega
  have hp2 : p + 1 < (specC7List nodes EI udls disp).length := by
    rw [specC7List_length]
    omega
  have e1 : ((specC7List nodes EI udls disp).map DiagramSample.x).getD p 0
      = ((specC7List nodes EI udls disp).getD p dfltSample).x := by
    rw [List.getD_eq_getElem _ _ (by simpa using hp1), List.getElem_map,
      List.getD_eq_getElem _ _ hp1]
  have e2 : ((specC7List nodes EI udls disp).map DiagramSample.x).getD (p + 1) 0
      = ((specC7List nodes EI udls disp).getD (p + 1) dfltSample).x := by
    rw [List.getD_eq_getElem _ _ (by simpa using hp2), List.getElem_map,
      List.getD_eq_getElem _ _ hp2]
  rw [e1, e2]
  have hdm := Nat.div_add_mod p 41
  have hmod : p % 41 < 41 := Nat.mod_lt p (by norm_num)
  by_cases hi : p % 41 < 40
  · have he : p / 41 < nodes.length - 1 := by omega
    have hlt := specC7List_x_lt nodes EI udls disp hsorted (p / 41) (p % 41) he hi
    have hidx1 : 41 * (p / 41) + p % 41 = p := hdm
    have hidx2 : 41 * (p / 41) + (p % 41 + 1) = p + 1 := by omega
    rw [hidx1, hidx2] at hlt
    exact le_of_lt hlt
  · have he : p / 41 + 1 < nodes.length - 1 := by omega
    have heq := specC7List_x_boundary nodes EI udls disp (p / 41) he
    have hidx1 : 41 * (p / 41) + 40 = p := by omega
    have hidx2 : 41 * (p / 41 + 1) = p + 1 := by omega
    rw [hidx1, hidx2] at heq
    exact le_of_eq heq

/-- C7: in every Success result the diagram list equals the spec's evaluator
output on the solved displacement vector: per element exactly 41 samples at
local coordinates `x = L*i/40` for `i = 0..40` with shear `endForce0 - w·x`,
moment `endForce1 + endForce0·x - w·x²/2`, end forces given by
`(local stiffness)·(local displacements) - (fixed-end forces)`, cubic Hermite
deflection, and global coordinate = element start position + `x`; the sample
abscissae are ascending overall, strictly increasing inside every element, and
every interior element boundary appears twice, once per adjoining element. -/
theorem spec_c7_diagrams (inp : BeamInput) (res : AnalysisResult)
    (hres : analyze inp = Outcome.success res) :
    ∃ displacements : ℕ → ℚ,
      res.diagrams
        = specC7List (nodesOf inp) (inp.youngsModulusMpa * inertiaOf inp)
            inp.udls displacements
      ∧ res.diagrams.length = 41 * ((nodesOf inp).length - 1)
      ∧ (∀ e i, e < (nodesOf inp).length - 1 → i < 40 →
          (res.diagrams.getD (41 * e + i) dfltSample).x
            < (res.diagrams.getD (41 * e + (i + 1)) dfltSample).x)
      ∧ (∀ e, e + 1 < (nodesOf inp).length - 1 →
          (res.diagrams.getD (41 * e + 40) dfltSample).x
            = (res.diagrams.getD (41 * (e + 1)) dfltSample).x)
      ∧ List.Chain' (· ≤ ·) (res.diagrams.map DiagramSample.x) := by
  rw [analyze] at hres
  cases hsol : solOf inp with
  | none =>
    rw [hsol] at hres
    exact Outcome.noConfusion hres
  | some xf =>
    rw [hsol] at hres
    injection hres with h2
    have hd : res.diagrams
        = computeDiagrams (nodesOf inp) (asmOf inp).elementData
            (expandDisplacements (bcOf inp).free xf) := by rw [← h2]
    have hcf : res.diagrams
        = specC7List (nodesOf inp) (inp.youngsModulusMpa * inertiaOf inp)
            inp.udls (expandDisplacements (bcOf inp).free xf) := by
      rw [hd, computeDiagrams_eq_spec, elementData_closed, specC7List,
        List.flatMap_map]
    have hsorted : ((nodesOf inp).map Node.x).Sorted (· < ·) :=
      buildNodes_sorted inp.lengthMm inp.supports inp.pointLoads inp.udls
    refine ⟨expandDisplacements (bcOf inp).free xf, hcf, ?_, ?_, ?_, ?_⟩
    · rw [hcf, specC7List_length]
    · intro e i he hi
      rw [hcf]
      exact specC7List_x_lt _ _ _ _ hsorted e i he hi
    · intro e he
      rw [hcf]
      exact specC7List_x_boundary _ _ _ _ e he
    · rw [hcf]
      exact specC7List_chain _ _ _ _ hsorted

/-- C7 witness: the diagram characterization applied to the all-fixed unloaded
beam, whose analysis succeeds. -/
theorem spec_c7_diagrams_witness :
    analyze bothFixedInput = Outcome.success bothFixedResult ∧
    ∃ displacements : ℕ → ℚ,
      bothFixedResult.diagrams
        = specC7List (nodesOf bothFixedInput)
            (bothFixedInput.youngsModulusMpa * inertiaOf bothFixedInput)
            bothFixedInput.udls displacements
      ∧ bothFixedResult.diagrams.length
          = 41 * ((nodesOf bothFixedInput).length - 1)
      ∧ (∀ e i, e < (nodesOf bothFixedInput).length - 1 → i < 40 →
          (bothFixedResult.diagrams.getD (41 * e + i) dfltSample).x
            < (bothFixedResult.diagrams.getD (41 * e + (i + 1)) dfltSample).x)
      ∧ (∀ e, e + 1 < (nodesOf bothFixedInput).length - 1 →
          (bothFixedResult.diagrams.getD (41 * e + 40) dfltSample).x
            = (bothFixedResult.diagrams.getD (41 * (e + 1)) dfltSample).x)
      ∧ List.Chain' (· ≤ ·) (bothFixedResult.diagrams.map DiagramSample.x) :=
  ⟨analyze_bothFixed,
    spec_c7_diagrams bothFixedInput bothFixedResult analyze_bothFixed⟩

end BeamVerify
